import Mathlib

/-!
Verification of the UCP content-graph library (Python package `ucp`) against its
natural-language specification.  The development shallowly embeds the relevant
modules:

* `block.py`   — the `Block` dataclass, `generate_block_id`, edge management;
* `section.py` — section clear / capture / restore, `_remove_subtree`,
  `find_section_by_path`;
* `traversal.py` — `TraversalEngine` BFS / DFS navigation;
* `context.py` — `ContextManager` pruning.

Python dictionaries are embedded as association lists (`Dict α`) with
Python-dict update semantics; Python objects become Lean structures; functions
that Python implements with unbounded recursion or `while` loops are embedded
with an explicit fuel parameter (the lemmas below show the fuel bounds under
which the embedding agrees with the terminating Python runs).
-/

/-! ## Association lists with Python-dict semantics -/

/-- A Python `dict[str, α]` embedded as an association list (insertion order
preserved, as in Python 3.7+). -/
abbrev Dict (α : Type) : Type := List (String × α)

namespace Dict

/-- Key lookup (`d.get(k)` / `d[k]`): the value at the first matching key. -/
def lookup (k : String) : Dict α → Option α
  | [] => none
  | (k', v) :: rest => if k' = k then some v else lookup k rest

/-- Lookup with a default (`d.get(k, dflt)`). -/
def lookupD (k : String) (d : Dict α) (dflt : α) : α :=
  (lookup k d).getD dflt

/-- Key membership test (`k in d`). -/
def contains (k : String) (d : Dict α) : Bool :=
  (lookup k d).isSome

/-- Assignment `d[k] = v`: replaces the value at an existing key in place,
otherwise appends a new entry at the end (Python dict semantics). -/
def set (k : String) (v : α) : Dict α → Dict α
  | [] => [(k, v)]
  | e :: rest => if e.1 = k then (k, v) :: rest else e :: set k v rest

/-- Key removal (`del d[k]` / `d.pop(k, None)`). -/
def erase (k : String) (d : Dict α) : Dict α :=
  d.filter (fun p => p.1 ≠ k)

/-- The key list (`list(d.keys())`). -/
def keys (d : Dict α) : List String :=
  d.map Prod.fst

@[simp] theorem lookup_nil (k : String) : lookup k ([] : Dict α) = none := rfl

theorem lookup_cons (k : String) (e : String × α) (d : Dict α) :
    lookup k (e :: d) = if e.1 = k then some e.2 else lookup k d := rfl

@[simp] theorem lookup_set_self (k : String) (v : α) (d : Dict α) :
    lookup k (set k v d) = some v := by
  induction d with
  | nil => simp [set, lookup]
  | cons e rest ih =>
    by_cases he : e.1 = k
    · simp [set, he, lookup]
    · simp [set, he, lookup_cons, ih]

theorem lookup_set_ne (k k' : String) (v : α) (d : Dict α) (h : k' ≠ k) :
    lookup k' (set k v d) = lookup k' d := by
  have hk : ¬ (k = k') := fun hh => h hh.symm
  induction d with
  | nil => simp [set, lookup, hk]
  | cons e rest ih =>
    by_cases he : e.1 = k
    · rw [set, if_pos he, lookup_cons, lookup_cons, if_neg hk, he, if_neg hk]
    · rw [set, if_neg he, lookup_cons, lookup_cons, ih]

@[simp] theorem lookup_erase_self (k : String) (d : Dict α) :
    lookup k (erase k d) = none := by
  induction d with
  | nil => rfl
  | cons e rest ih =>
    by_cases he : e.1 = k
    · simpa [erase, List.filter_cons, he] using ih
    · simpa [erase, List.filter_cons, he, lookup_cons] using ih

theorem lookup_erase_ne (k k' : String) (d : Dict α) (h : k' ≠ k) :
    lookup k' (erase k d) = lookup k' d := by
  induction d with
  | nil => rfl
  | cons e rest ih =>
    by_cases he : e.1 = k
    · have hek : ¬ (e.1 = k') := by rw [he]; exact fun hh => h hh.symm
      rw [erase, List.filter_cons, if_neg (by simp [he])]
      rw [lookup_cons, if_neg hek]
      exact ih
    · rw [erase, List.filter_cons, if_pos (by simp [he])]
      rw [lookup_cons, lookup_cons]
      by_cases hek : e.1 = k'
      · rw [if_pos hek, if_pos hek]
      · rw [if_neg hek, if_neg hek]
        exact ih

theorem lookup_mem {k : String} {v : α} {d : Dict α} (h : lookup k d = some v) :
    (k, v) ∈ d := by
  induction d with
  | nil => simp [lookup] at h
  | cons e rest ih =>
    rw [lookup_cons] at h
    split at h
    · rename_i he
      cases h
      cases e
      simp_all
    · exact List.mem_cons_of_mem _ (ih h)

theorem lookup_isSome_of_mem {k : String} {v : α} {d : Dict α} (h : (k, v) ∈ d) :
    (lookup k d).isSome := by
  induction d with
  | nil => simp at h
  | cons e rest ih =>
    rw [lookup_cons]
    by_cases he : e.1 = k
    · simp [he]
    · rcases List.mem_cons.1 h with h1 | h2
      · exact absurd (congrArg Prod.fst h1.symm) he
      · simp [he, ih h2]

end Dict

/-! ## Spec-modelled content types

`types.py` is not part of the provided sources; the structures below are
modelled from the spec (§3 data model). -/

/-- Modelled from the spec: `ContentType` — the closed content-kind enumeration
of `types.py` ("payload, tagged by content_type ∈ {text, code, table, json}"). -/
inductive ContentType where
  | text
  | code
  | table
  | json
  deriving DecidableEq, Repr

/-- Modelled from the spec: `EdgeType` — the closed edge-type enumeration of
`types.py`.  Only equality of edge types is used by the claims, so the
enumeration is embedded by its string value. -/
structure EdgeType where
  value : String
  deriving DecidableEq, Repr

/-- Modelled from the spec: `Edge` — a directed, typed relationship.  `target`
is a block id with no existence check at construction time.  (Edge metadata is
omitted: no claim inspects it and `Block.remove_edge` compares only `target`
and `edge_type`.) -/
structure Edge where
  target : String
  edge_type : EdgeType
  created_at : Nat
  deriving DecidableEq, Repr

/-- Modelled from the spec: `BlockMetadata` of `types.py` — semantic role
(embedded by its string value, e.g. "heading1"), label, tags, custom bag,
cached token estimate and created/modified timestamps. -/
structure BlockMetadata where
  semantic_role : Option String := none
  label : Option String := none
  tags : List String := []
  custom : List (String × String) := []
  token_estimate : Option Nat := none
  created_at : Nat := 0
  modified_at : Nat := 0
  deriving DecidableEq, Repr

/-- Modelled from the spec: `BlockMetadata.touch` updates `modified_at` ("
created_at/modified_at timestamps updated on every mutation (touch)").  Time is
passed explicitly. -/
def BlockMetadata.touch (now : Nat) (m : BlockMetadata) : BlockMetadata :=
  { m with modified_at := now }

/-! ## Block (`block.py`) -/

/-- The `Block` dataclass of `block.py`: id, content, content type, metadata,
outgoing edges and the ordered child-id list. -/
structure Block where
  id : String
  content : String
  content_type : ContentType := ContentType.text
  metadata : BlockMetadata := {}
  edges : List Edge := []
  children : List String := []
  deriving DecidableEq, Repr

namespace Block

/-- The `__eq__` generated for `Block` by the plain `@dataclass` decorator in
`block.py`: `Block` declares no custom `__eq__`, so Python compares the tuple
of ALL fields (id, content, content_type, metadata, edges, children).  Note
`block.py` also defines no `__hash__`; `@dataclass` with the default
`eq=True, frozen=False` sets `__hash__ = None`, making `Block` unhashable. -/
def dataclassEq (a b : Block) : Bool :=
  a.id = b.id ∧ a.content = b.content ∧ a.content_type = b.content_type ∧
    a.metadata = b.metadata ∧ a.edges = b.edges ∧ a.children = b.children

/-- Whether the `@dataclass` decorator with flags `(eq, frozen)` suppresses
hashing by setting `__hash__ = None` (Python language semantics: it does
exactly when `eq` is true and `frozen` is false).  `Block` in `block.py` is
declared with the default flags `eq=True, frozen=False`. -/
def dataclassUnhashable (eqFlag frozenFlag : Bool) : Bool :=
  eqFlag && !frozenFlag

/-- The matching predicate of `Block.remove_edge`: an edge is dropped when both
its target and its edge type match. -/
def edgeMatches (target : String) (ty : EdgeType) (e : Edge) : Bool :=
  e.target = target ∧ e.edge_type = ty

/-- `Block.add_edge` from `block.py`: appends the edge and touches
`modified_at`.  There is no check that the target block exists. -/
def add_edge (now : Nat) (e : Edge) (b : Block) : Block :=
  { b with edges := b.edges ++ [e], metadata := b.metadata.touch now }

/-- `Block.remove_edge` from `block.py`: filters out every edge matching the
given target and edge type, touches `modified_at` when at least one was
dropped, and returns whether any was dropped (detected by comparing list
lengths, as in the source). -/
def remove_edge (now : Nat) (target : String) (ty : EdgeType) (b : Block) :
    Block × Bool :=
  let originalLen := b.edges.length
  let newEdges := b.edges.filter (fun e => ¬ edgeMatches target ty e)
  let removed := decide (newEdges.length < originalLen)
  let md := if removed then b.metadata.touch now else b.metadata
  ({ b with edges := newEdges, metadata := md }, removed)

end Block

/-! ## Block id generation (`block.py`) -/

/-- One lowercase hexadecimal digit character, as produced by Python's `x`
format code. -/
def hexChar (d : Nat) : Char :=
  if d < 10 then Char.ofNat (48 + d) else Char.ofNat (87 + d)

/-- The hexadecimal digits of `n` (most significant first, empty for 0),
computed with structural fuel; `hexDigitsAux fuel n` is the full digit list
whenever `n ≤ fuel`. -/
def hexDigitsAux : Nat → Nat → List Char
  | _, 0 => []
  | 0, _ + 1 => []
  | fuel + 1, n + 1 => hexDigitsAux fuel ((n + 1) / 16) ++ [hexChar ((n + 1) % 16)]

/-- The lowercase-hex rendering of `n` padded with leading zeros to a MINIMUM
width `w` — Python's `format(n, "012x")` for `w = 12` (the width is a minimum,
not a cap: larger numbers render with more digits). -/
def hexPad (w n : Nat) : List Char :=
  let ds := if n = 0 then ['0'] else hexDigitsAux n n
  List.replicate (w - ds.length) '0' ++ ds

/-- `generate_block_id` from `block.py`: increments the module-global counter
and renders it as `f"blk_{counter:012x}"`.  The global counter is threaded
explicitly; the returned pair is (id, new counter value). -/
def generate_block_id (counter : Nat) : String × Nat :=
  (String.mk ('b' :: 'l' :: 'k' :: '_' :: hexPad 12 (counter + 1)), counter + 1)

/-- Decoded value of a hex digit character (inverse of `hexChar` on 0..15). -/
def hexVal (c : Char) : Nat :=
  if c.toNat ≥ 87 then c.toNat - 87 else c.toNat - 48

/-- Decode a big-endian hex digit list. -/
def decodeHex (ds : List Char) : Nat :=
  ds.foldl (fun acc c => acc * 16 + hexVal c) 0

/-- The sixteen lowercase hexadecimal digit characters. -/
def hexAlphabet : List Char :=
  (List.range 16).map hexChar

theorem hexVal_hexChar : ∀ d, d < 16 → hexVal (hexChar d) = d := by decide

theorem hexChar_mem_alphabet : ∀ d, d < 16 → hexChar d ∈ hexAlphabet := by decide

theorem hexDigitsAux_div_le {m fuel : Nat} (h : m + 1 ≤ fuel + 1) :
    (m + 1) / 16 ≤ fuel := by
  have h1 : (m + 1) / 16 < m + 1 := Nat.div_lt_self (Nat.succ_pos m) (by norm_num)
  omega

theorem foldl_hexDigitsAux (fuel : Nat) :
    ∀ n acc, n ≤ fuel →
      (hexDigitsAux fuel n).foldl (fun acc c => acc * 16 + hexVal c) acc =
        acc * 16 ^ (hexDigitsAux fuel n).length + n := by
  induction fuel with
  | zero =>
    intro n acc h
    interval_cases n
    simp [hexDigitsAux]
  | succ fuel ih =>
    intro n acc h
    match n with
    | 0 => simp [hexDigitsAux]
    | m + 1 =>
      rw [hexDigitsAux]
      rw [List.foldl_append, List.length_append]
      rw [ih _ acc (hexDigitsAux_div_le h)]
      simp only [List.foldl_cons, List.foldl_nil, List.length_cons, List.length_nil]
      rw [hexVal_hexChar _ (Nat.mod_lt _ (by norm_num))]
      rw [pow_succ]
      have hmul : acc * (16 ^ (hexDigitsAux fuel ((m + 1) / 16)).length * 16) =
          acc * 16 ^ (hexDigitsAux fuel ((m + 1) / 16)).length * 16 := by ring
      rw [hmul]
      generalize acc * 16 ^ (hexDigitsAux fuel ((m + 1) / 16)).length = A
      omega

theorem hexDigitsAux_length_le (fuel : Nat) :
    ∀ n w, n ≤ fuel → n < 16 ^ w → (hexDigitsAux fuel n).length ≤ w := by
  induction fuel with
  | zero =>
    intro n w h _
    interval_cases n
    simp [hexDigitsAux]
  | succ fuel ih =>
    intro n w h hw
    match n with
    | 0 => simp [hexDigitsAux]
    | m + 1 =>
      match w with
      | 0 => exact absurd hw (by simp)
      | v + 1 =>
        rw [hexDigitsAux, List.length_append]
        have hq : (m + 1) / 16 < 16 ^ v := by
          rw [Nat.div_lt_iff_lt_mul (by norm_num)]
          calc m + 1 < 16 ^ (v + 1) := hw
          _ = 16 ^ v * 16 := by rw [pow_succ]
        have := ih ((m + 1) / 16) v (hexDigitsAux_div_le h) hq
        simp only [List.length_cons, List.length_nil]
        omega

theorem hexDigitsAux_mem_alphabet (fuel : Nat) :
    ∀ n c, n ≤ fuel → c ∈ hexDigitsAux fuel n → c ∈ hexAlphabet := by
  induction fuel with
  | zero =>
    intro n c h hc
    interval_cases n
    simp [hexDigitsAux] at hc
  | succ fuel ih =>
    intro n c h hc
    match n with
    | 0 => simp [hexDigitsAux] at hc
    | m + 1 =>
      rw [hexDigitsAux] at hc
      rcases List.mem_append.1 hc with h1 | h2
      · exact ih _ _ (hexDigitsAux_div_le h) h1
      · rw [List.mem_singleton] at h2
        subst h2
        exact hexChar_mem_alphabet _ (Nat.mod_lt _ (by norm_num))

theorem decodeHex_append_replicate_zero (m : Nat) (ds : List Char) :
    decodeHex (List.replicate m '0' ++ ds) = decodeHex ds := by
  unfold decodeHex
  rw [List.foldl_append]
  congr 1
  induction m with
  | zero => simp
  | succ m ih =>
    rw [List.replicate_succ, List.foldl_cons]
    simpa [hexVal] using ih

theorem decodeHex_hexPad (w n : Nat) : decodeHex (hexPad w n) = n := by
  unfold hexPad
  rw [decodeHex_append_replicate_zero]
  by_cases h0 : n = 0
  · subst h0
    simp [decodeHex, hexVal]
  · simp only [h0, if_neg h0]
    have := foldl_hexDigitsAux n n 0 (le_refl n)
    unfold decodeHex
    simpa using this

theorem hexPad_injective {w n₁ n₂ : Nat} (h : hexPad w n₁ = hexPad w n₂) : n₁ = n₂ := by
  have := decodeHex_hexPad w n₁
  rw [h, decodeHex_hexPad] at this
  exact this.symm

theorem hexPad_length {w n : Nat} (hn : 0 < n) (_hw : 0 < w) (h : n < 16 ^ w) :
    (hexPad w n).length = w := by
  have hne : ¬ (n = 0) := Nat.pos_iff_ne_zero.1 hn
  show (List.replicate (w - (if n = 0 then ['0'] else hexDigitsAux n n).length) '0' ++
      (if n = 0 then ['0'] else hexDigitsAux n n)).length = w
  rw [if_neg hne]
  simp only [List.length_append, List.length_replicate]
  have := hexDigitsAux_length_le n n w (le_refl n) h
  omega

theorem hexPad_mem_alphabet {w n : Nat} {c : Char} (h : c ∈ hexPad w n) :
    c ∈ hexAlphabet := by
  have h' : c ∈ List.replicate (w - (if n = 0 then ['0'] else hexDigitsAux n n).length) '0' ++
      (if n = 0 then ['0'] else hexDigitsAux n n) := h
  rcases List.mem_append.1 h' with h1 | h2
  · rw [List.eq_of_mem_replicate h1]
    decide
  · by_cases h0 : n = 0
    · rw [if_pos h0, List.mem_singleton] at h2
      subst h2; decide
    · rw [if_neg h0] at h2
      exact hexDigitsAux_mem_alphabet n n c (le_refl n) h2

/-- C5 counterexample: the id issued for counter value 1 has total length 16,
but the id issued for counter value `16^12` (when the twelve-hex-digit space is
exhausted) has length 17 — Python's `:012x` is a minimum width, not a fixed
width — so the total id length is not fixed over every call, contrary to the
claim. -/
theorem C5_counterexample_id_length_not_fixed :
    (generate_block_id 0).1.length = 16 ∧
      (generate_block_id (16 ^ 12 - 1)).1.length = 17 := by
  constructor
  · rfl
  · rfl

/-- C5 (amended): every call to `generate_block_id` returns the literal prefix
"blk_" followed by a lowercase-hexadecimal suffix that encodes the strictly
increased counter value (so distinct calls in one process return distinct
ids), and the suffix has fixed length 12 — total id length 16 — as long as
the counter value stays below `16^12`; beyond that the suffix grows instead of
staying fixed. -/
theorem C5_generate_block_id_spec (c₁ c₂ : Nat) :
    (generate_block_id c₁).2 = c₁ + 1 ∧
    (generate_block_id c₁).1 =
      String.mk ('b' :: 'l' :: 'k' :: '_' :: hexPad 12 (c₁ + 1)) ∧
    (∀ ch ∈ hexPad 12 (c₁ + 1), ch ∈ hexAlphabet) ∧
    decodeHex (hexPad 12 (c₁ + 1)) = c₁ + 1 ∧
    ((generate_block_id c₁).1 = (generate_block_id c₂).1 → c₁ = c₂) ∧
    (c₁ + 1 < 16 ^ 12 → (generate_block_id c₁).1.length = 16) := by
  refine ⟨rfl, rfl, fun ch hc => hexPad_mem_alphabet hc, decodeHex_hexPad _ _, ?_, ?_⟩
  · intro h
    have hdata : 'b' :: 'l' :: 'k' :: '_' :: hexPad 12 (c₁ + 1) =
        'b' :: 'l' :: 'k' :: '_' :: hexPad 12 (c₂ + 1) := congrArg String.data h
    simp only [List.cons.injEq, true_and] at hdata
    have := hexPad_injective hdata
    omega
  · intro h
    show ('b' :: 'l' :: 'k' :: '_' :: hexPad 12 (c₁ + 1)).length = 16
    have : (hexPad 12 (c₁ + 1)).length = 12 :=
      hexPad_length (Nat.succ_pos c₁) (by norm_num) h
    simp [this]

/-- C5 witness: concrete instantiation of the amended claim at counters 0 and
1, with the hypotheses discharged. -/
theorem C5_generate_block_id_spec_witness :
    (generate_block_id 0).2 = 1 ∧ (generate_block_id 0).1.length = 16 ∧
      ((generate_block_id 0).1 = (generate_block_id 1).1 → 0 = 1) := by
  refine ⟨(C5_generate_block_id_spec 0 1).1, ?_, (C5_generate_block_id_spec 0 1).2.2.2.2.1⟩
  exact (C5_generate_block_id_spec 0 1).2.2.2.2.2 (by norm_num)

/-! ## Claim C1: Block identity -/

/-- A pair of blocks sharing an id but differing in content — the
`test_block_hashability.py` scenario `Block(id=block1.id, content="Different
content")`. -/
def c1BlockA : Block :=
  { id := "blk_000000000001", content := "Content" }

/-- The companion block of `c1BlockA` with the same id and different content. -/
def c1BlockB : Block :=
  { id := "blk_000000000001", content := "Different content" }

/-- C1: the claim (and the repository's own conformance test
`test_block_hashability.py`) require two `Block` values with the same id but
different content to compare equal, but `Block` in `block.py` is a plain
`@dataclass` with no custom `__eq__`/`__hash__`: the generated `__eq__`
compares every field, so the two blocks below — equal ids, different
content — compare UNEQUAL, and `@dataclass(eq=True, frozen=False)` sets
`__hash__ = None`, so `hash(block)` raises and blocks cannot be set members or
dict keys at all.  The code contradicts its own tests: this is a code bug, not
a spec error. -/
theorem C1_block_identity_code_bug :
    c1BlockA.id = c1BlockB.id ∧
      Block.dataclassEq c1BlockA c1BlockB = false ∧
      Block.dataclassUnhashable true false = true := by
  refine ⟨rfl, ?_, rfl⟩
  decide

/-! ## Claim C6: edge mutations -/

/-- C6: `Block.add_edge` appends the given edge unconditionally (no existence
check of the target) and touches `modified_at`; `Block.remove_edge` returns
true iff at least one edge with the given target and edge type was present, in
which case it removes every such edge and touches `modified_at`; when it
returns false the block (edge list and metadata alike) is unchanged. -/
theorem C6_edge_mutations (now : Nat) (b : Block) (e : Edge) (target : String)
    (ty : EdgeType) :
    (Block.add_edge now e b).edges = b.edges ++ [e] ∧
    (Block.add_edge now e b).metadata.modified_at = now ∧
    ((Block.remove_edge now target ty b).2 = true ↔
      ∃ e' ∈ b.edges, Block.edgeMatches target ty e' = true) ∧
    ((Block.remove_edge now target ty b).2 = true →
      (Block.remove_edge now target ty b).1.edges =
          b.edges.filter (fun e' => ¬ Block.edgeMatches target ty e') ∧
        (Block.remove_edge now target ty b).1.metadata.modified_at = now) ∧
    ((Block.remove_edge now target ty b).2 = false →
      (Block.remove_edge now target ty b).1 = b) := by
  have hfilt :
      (Block.remove_edge now target ty b).1.edges =
        b.edges.filter (fun e' => ¬ Block.edgeMatches target ty e') := rfl
  have hkey : (Block.remove_edge now target ty b).2 = true ↔
      ∃ e' ∈ b.edges, Block.edgeMatches target ty e' = true := by
    show decide ((b.edges.filter (fun e' => ¬ Block.edgeMatches target ty e')).length <
        b.edges.length) = true ↔ _
    rw [decide_eq_true_iff]
    constructor
    · intro hlt
      by_contra hne
      push_neg at hne
      have hall : ∀ e' ∈ b.edges, (¬ Block.edgeMatches target ty e' : Bool) = true := by
        intro e' he'
        have := hne e' he'
        simp only [Bool.not_eq_true] at this ⊢
        simp [this]
      rw [List.filter_eq_self.2 hall] at hlt
      exact lt_irrefl _ hlt
    · intro hex
      rcases hex with ⟨e', he', hm⟩
      apply List.length_filter_lt_length_iff_exists.2
      exact ⟨e', he', by simp [hm]⟩
  have hstruct : (Block.remove_edge now target ty b).1 =
      { b with
        edges := b.edges.filter (fun e' => ¬ Block.edgeMatches target ty e'),
        metadata := if (Block.remove_edge now target ty b).2 = true
          then b.metadata.touch now else b.metadata } := rfl
  refine ⟨rfl, rfl, hkey, ?_, ?_⟩
  · intro htrue
    refine ⟨hfilt, ?_⟩
    rw [hstruct, if_pos htrue]
    rfl
  · intro hfalse
    have hne : ¬ ∃ e' ∈ b.edges, Block.edgeMatches target ty e' = true := by
      intro hex
      have := hkey.2 hex
      rw [hfalse] at this
      exact Bool.false_ne_true this
    have hfe : b.edges.filter (fun e' => ¬ Block.edgeMatches target ty e') = b.edges := by
      apply List.filter_eq_self.2
      intro e' he'
      by_contra hno
      apply hne
      refine ⟨e', he', ?_⟩
      simpa using hno
    rw [hstruct, if_neg (by rw [hfalse]; exact Bool.false_ne_true), hfe]

/-- C6 witness: a concrete block holding one matching and one non-matching
edge; instantiating the theorem removes exactly the matching edge, reports
true, and stamps the modification time. -/
theorem C6_edge_mutations_witness :
    (Block.remove_edge 7 "blk_t" ⟨"references"⟩
        { id := "blk_a", content := "x",
          edges := [⟨"blk_t", ⟨"references"⟩, 0⟩, ⟨"blk_u", ⟨"links_to"⟩, 0⟩] }).2 = true ∧
    (Block.remove_edge 7 "blk_t" ⟨"references"⟩
        { id := "blk_a", content := "x",
          edges := [⟨"blk_t", ⟨"references"⟩, 0⟩, ⟨"blk_u", ⟨"links_to"⟩, 0⟩] }).1.edges =
      [⟨"blk_u", ⟨"links_to"⟩, 0⟩] := by
  have h := C6_edge_mutations 7
    { id := "blk_a", content := "x",
      edges := [⟨"blk_t", ⟨"references"⟩, 0⟩, ⟨"blk_u", ⟨"links_to"⟩, 0⟩] }
    ⟨"blk_v", ⟨"supports"⟩, 0⟩ "blk_t" ⟨"references"⟩
  have htrue := h.2.2.1.2 ⟨⟨"blk_t", ⟨"references"⟩, 0⟩, by decide, by decide⟩
  refine ⟨htrue, ?_⟩
  rw [(h.2.2.2.1 htrue).1]
  decide

/-! ## Document (spec-modelled container) and `section.py` -/

/-- Modelled from the spec: the `Document` of `document.py` (not among the
provided sources) as far as `section.py`, `traversal.py` and `context.py` use
it — "root: the id of the single root block", "blocks: mapping id → Block",
"structure: mapping id → ordered child-id list".  The Python attribute name
`structure` is a Lean keyword, so the field is named `struct`. -/
structure Doc where
  root : String
  blocks : Dict Block
  struct : Dict (List String)

namespace Doc

/-- Modelled from the spec: `Document.children(id)` — "read accessor derived
from structure"; `doc.structure.get(id, [])`. -/
def children (doc : Doc) (id : String) : List String :=
  Dict.lookupD id doc.struct []

/-- Modelled from the spec: `Document.parent(id)` — "read accessor derived
from structure": the first structure entry whose child list contains `id`. -/
def parent (doc : Doc) (id : String) : Option String :=
  (doc.struct.find? (fun e => e.2.contains id)).map Prod.fst

end Doc

/-- The `DeletedSectionContent` dataclass of `section.py`: preserved section
content for restore operations (block map, structure map, parent id). -/
structure DeletedSectionContent where
  parent_id : String
  blocks : Dict Block := []
  struct : Dict (List String) := []
  deleted_at : Nat := 0

/-- The `SectionWriteResult` dataclass of `section.py`. -/
structure SectionWriteResult where
  success : Bool
  section_id : String
  blocks_removed : List String
  blocks_added : List String
  error : Option String := none

/-- The paired update `doc.structure[k] = cs` followed by `block =
doc.blocks.get(k); if block: block.children = list(cs)` — the pattern
`section.py` uses in `_remove_subtree` (parent fix-up),
`_clear_section_children` (reset to []), and `restore_deleted_section`
(structure replay and final parent restore). -/
def setStructPair (k : String) (cs : List String) (doc : Doc) : Doc :=
  let d := { doc with struct := Dict.set k cs doc.struct }
  match Dict.lookup k d.blocks with
  | some b =>
    let b1 := { b with children := cs }
    { d with blocks := Dict.set k b1 d.blocks }
  | none => d

/-- The parent fix-up step of `_remove_subtree`: look the parent up via the
structure index, and if it is truthy and present in `structure`, filter the
removed id out of its child list (updating the parent block's own list in
lock-step). -/
def removeFromParent (doc : Doc) (blockId : String) : Doc :=
  match doc.parent blockId with
  | some parentId =>
    if parentId ≠ "" ∧ Dict.contains parentId doc.struct then
      let newList := (Dict.lookupD parentId doc.struct []).filter (· ≠ blockId)
      setStructPair parentId newList doc
    else doc
  | none => doc

/-- The final `doc.structure.pop(block_id, None); del doc.blocks[block_id]` of
`_remove_subtree`. -/
def eraseBoth (doc : Doc) (blockId : String) : Doc :=
  { doc with struct := Dict.erase blockId doc.struct,
             blocks := Dict.erase blockId doc.blocks }

/-- The cascade removal `_remove_subtree` of `section.py`, embedded with
structural fuel (one unit per recursion level, exactly the Python call
depth; `fuel = 0` corresponds to a Python run that would overflow the stack
and is unreachable whenever `fuel` exceeds the subtree height).  Returns the
updated document and the removed ids in post-order. -/
def removeSubtree : Nat → Doc → String → Doc × List String
  | 0, doc, _ => (doc, [])
  | fuel + 1, doc, blockId =>
    match Dict.lookup blockId doc.blocks with
    | none => (doc, [])
    | some block =>
      let folded := block.children.foldl
        (fun acc c =>
          let r := removeSubtree fuel acc.1 c
          (r.1, acc.2 ++ r.2))
        (doc, ([] : List String))
      (eraseBoth (removeFromParent folded.1 blockId) blockId, folded.2 ++ [blockId])

/-- The helper `_clear_section_children` of `section.py`: removes every child
subtree of the section, then resets the section's structure entry and child
list to empty. -/
def clearSectionChildren (fuel : Nat) (doc : Doc) (sectionId : String) :
    Doc × List String :=
  let childList := doc.children sectionId
  let folded := childList.foldl
    (fun acc c =>
      let r := removeSubtree fuel acc.1 c
      (r.1, acc.2 ++ r.2))
    (doc, ([] : List String))
  (setStructPair sectionId [] folded.1, folded.2)

/-- The BFS loop of `_capture_section_content` in `section.py`: dequeues from
the front, copies the current block (if present) and its structure entry into
the captured content, and enqueues the children at the back.  Fuel-indexed;
`none` marks fuel exhaustion (a Python run that has not terminated yet). -/
def captureLoop : Nat → Doc → DeletedSectionContent → List String →
    Option DeletedSectionContent
  | _, _, content, [] => some content
  | 0, _, _, _ :: _ => none
  | fuel + 1, doc, content, current :: queue =>
    let content1 :=
      match Dict.lookup current doc.blocks with
      | some block => { content with blocks := Dict.set current block content.blocks }
      | none => content
    let childList := doc.children current
    let content2 := { content1 with struct := Dict.set current childList content1.struct }
    captureLoop fuel doc content2 (queue ++ childList)

/-- The helper `_capture_section_content` of `section.py`: records the
section's child list and then BFS-captures every block and structure entry
below it (by value — `copy.deepcopy` is the identity in this pure embedding). -/
def captureSectionContent (fuel : Nat) (doc : Doc) (sectionId : String) :
    Option DeletedSectionContent :=
  let parentChildren := doc.children sectionId
  let content : DeletedSectionContent :=
    { parent_id := sectionId, struct := Dict.set sectionId parentChildren [] }
  captureLoop fuel doc content parentChildren

/-- The result pair of `clear_section_with_undo`: removed ids and the captured
content (the `ClearSectionResult` dataclass of `section.py`). -/
structure ClearSectionResult where
  removed_ids : List String
  deleted_content : DeletedSectionContent

/-- The function `clear_section_with_undo` of `section.py`: raises ValueError
(`Except.error`) when the section is absent, otherwise captures the section
content and clears the children.  The outer `Option` is fuel exhaustion of the
capture BFS (no Python counterpart on terminating runs). -/
def clear_section_with_undo (fcap fclear : Nat) (doc : Doc) (sectionId : String) :
    Option (Except String (ClearSectionResult × Doc)) :=
  if ¬ Dict.contains sectionId doc.blocks then
    some (Except.error ("Section not found: " ++ sectionId))
  else
    match captureSectionContent fcap doc sectionId with
    | none => none
    | some deleted =>
      let r := clearSectionChildren fclear doc sectionId
      some (Except.ok (⟨r.2, deleted⟩, r.1))

/-- Stage 1 of `restore_deleted_section`: `for child_id in
list(doc.structure.get(parent_id, [])): _remove_subtree(doc, child_id)`. -/
def restoreStage1 (fuel : Nat) (doc : Doc) (parentId : String) : Doc :=
  (doc.children parentId).foldl (fun acc c => (removeSubtree fuel acc c).1) doc

/-- Stage 2 of `restore_deleted_section`: `doc.structure[parent_id] = []`. -/
def restoreStage2 (fuel : Nat) (doc : Doc) (parentId : String) : Doc :=
  let d1 := restoreStage1 fuel doc parentId
  { d1 with struct := Dict.set parentId [] d1.struct }

/-- The block-reinsertion loop of `restore_deleted_section`:
`doc.blocks[block_id] = deepcopy(block)` for every preserved block, in
preservation order, collecting the restored ids. -/
def restoreBlocksFold (content : DeletedSectionContent) (d : Doc) :
    Doc × List String :=
  content.blocks.foldl
    (fun acc e =>
      ({ acc.1 with blocks := Dict.set e.1 e.2 acc.1.blocks }, acc.2 ++ [e.1]))
    (d, ([] : List String))

/-- The structure-replay loop of `restore_deleted_section`:
`doc.structure[block_id] = list(children)` plus the block's own child list,
for every preserved entry other than the parent. -/
def restoreStructFold (content : DeletedSectionContent) (d : Doc) : Doc :=
  content.struct.foldl
    (fun acc e =>
      if e.1 ≠ content.parent_id then setStructPair e.1 e.2 acc else acc) d

/-- The successful path of `restore_deleted_section`: remove current children,
reset the parent's entry, reinsert blocks, replay structure, restore the
parent's child list. -/
def restoreOk (fuel : Nat) (doc : Doc) (content : DeletedSectionContent) :
    List String × Doc :=
  let d2 := restoreStage2 fuel doc content.parent_id
  let r := restoreBlocksFold content d2
  let d3 := restoreStructFold content r.1
  let parentChildren := Dict.lookupD content.parent_id content.struct []
  (r.2, setStructPair content.parent_id parentChildren d3)

/-- The function `restore_deleted_section` of `section.py`: raises ValueError
(`Except.error`) when the recorded parent is absent; otherwise removes the
parent's current child subtrees, reinserts the preserved blocks, replays the
preserved structure entries (updating each block's own child list in
lock-step), and finally restores the parent's child list.  Returns the
restored ids in preservation order. -/
def restore_deleted_section (fuel : Nat) (doc : Doc)
    (content : DeletedSectionContent) : Except String (List String × Doc) :=
  if ¬ Dict.contains content.parent_id doc.blocks then
    Except.error ("Parent section not found: " ++ content.parent_id)
  else
    Except.ok (restoreOk fuel doc content)

/-- The function `write_section` of `section.py`.  The markdown parser and the
block integration helper live in modules that are external to the claims
(`markdown.py`, `_integrate_blocks` over `Document.add_block`), so they are
taken as parameters; the absent-section early return — the path all claims
about this function exercise — is embedded verbatim. -/
def write_section (parse : String → Doc)
    (integrate : Doc → String → Doc → Option Nat → Doc × List String)
    (fclear : Nat) (doc : Doc) (sectionId markdown : String)
    (baseHeadingLevel : Option Nat) : SectionWriteResult × Doc :=
  if ¬ Dict.contains sectionId doc.blocks then
    ({ success := false, section_id := sectionId, blocks_removed := [],
       blocks_added := [], error := some ("Section not found: " ++ sectionId) }, doc)
  else
    let r := clearSectionChildren fclear doc sectionId
    let parsed := parse markdown
    let ri := integrate r.1 sectionId parsed baseHeadingLevel
    ({ success := true, section_id := sectionId, blocks_removed := r.2,
       blocks_added := ri.2, error := none }, ri.1)

/-- Python `str.split(sep)` for a non-empty separator: leftmost-first,
non-overlapping, keeps empty segments; `acc` is the current segment reversed.
The fuel is the remaining character count, which suffices because every step
consumes at least one character. -/
def pySplitAux (sep : List Char) : Nat → List Char → List Char → List (List Char)
  | _, [], acc => [acc.reverse]
  | 0, rest, acc => [acc.reverse ++ rest]
  | fuel + 1, c :: rest, acc =>
    if sep.isPrefixOf (c :: rest) then
      acc.reverse :: pySplitAux sep fuel ((c :: rest).drop sep.length) []
    else
      pySplitAux sep fuel rest (c :: acc)

/-- Python `s.split(sep)` (non-empty `sep`): always returns at least one
segment; `"".split(sep) == [""]`. -/
def pySplit (s sep : String) : List String :=
  (pySplitAux sep.data s.data.length s.data []).map String.mk

/-- Python `str.strip()`: drop leading and trailing whitespace. -/
def pyStrip (s : String) : String :=
  String.mk (((s.data.dropWhile Char.isWhitespace).reverse.dropWhile
    Char.isWhitespace).reverse)

/-- Python `str.startswith(pre)`. -/
def pyStartsWith (s pre : String) : Bool :=
  pre.data.isPrefixOf s.data

/-- The inner child scan of `find_section_by_path`: the first child that
exists, has a semantic role starting with "heading", and whose stripped
content equals the path component. -/
def headingMatchChild (doc : Doc) (part : String) : List String → Option String
  | [] => none
  | childId :: rest =>
    match Dict.lookup childId doc.blocks with
    | none => headingMatchChild doc part rest
    | some block =>
      let role := block.metadata.semantic_role.getD ""
      if pyStartsWith role "heading" && pyStrip block.content == part then some childId
      else headingMatchChild doc part rest

/-- The descent loop of `find_section_by_path`: one structure level per path
component; Python's `if not found: return None` also treats an empty-string id
as "not found" (string falsiness), which the embedding preserves. -/
def descendPath (doc : Doc) : List String → String → Option String
  | [], currentId => some currentId
  | part :: rest, currentId =>
    match headingMatchChild doc part (doc.children currentId) with
    | none => none
    | some found => if found = "" then none else descendPath doc rest found

/-- The function `find_section_by_path` of `section.py`: splits the path on
" > ", strips each component, descends from the root matching heading
children, and refuses to return the root itself. -/
def find_section_by_path (doc : Doc) (path : String) : Option String :=
  let parts := (pySplit path " > ").map pyStrip
  if parts = [] then none
  else
    match descendPath doc parts doc.root with
    | none => none
    | some currentId => if currentId ≠ doc.root then some currentId else none

/-! ## Claim C7: operations on an absent id -/

/-- C7: operations on an absent id fail immediately and visibly without
touching the document: `write_section` returns a failed result (success false,
no removals, no additions, an error message) together with the unchanged
document; `clear_section_with_undo` raises `ValueError` (embedded as
`Except.error`, before any mutation); `restore_deleted_section` raises
`ValueError` when the recorded parent id is absent (again before any
mutation). -/
theorem C7_absent_id_fails_without_mutation
    (parse : String → Doc)
    (integrate : Doc → String → Doc → Option Nat → Doc × List String)
    (fcap fclear frestore : Nat) (doc : Doc) (sectionId markdown : String)
    (bhl : Option Nat) (content : DeletedSectionContent)
    (h1 : Dict.lookup sectionId doc.blocks = none)
    (h2 : Dict.lookup content.parent_id doc.blocks = none) :
    write_section parse integrate fclear doc sectionId markdown bhl =
      ({ success := false, section_id := sectionId, blocks_removed := [],
         blocks_added := [],
         error := some ("Section not found: " ++ sectionId) }, doc) ∧
    clear_section_with_undo fcap fclear doc sectionId =
      some (Except.error ("Section not found: " ++ sectionId)) ∧
    restore_deleted_section frestore doc content =
      Except.error ("Parent section not found: " ++ content.parent_id) := by
  have hc1 : Dict.contains sectionId doc.blocks = false := by
    simp [Dict.contains, h1]
  have hc2 : Dict.contains content.parent_id doc.blocks = false := by
    simp [Dict.contains, h2]
  refine ⟨?_, ?_, ?_⟩
  · unfold write_section
    rw [if_pos (by simp [hc1])]
  · unfold clear_section_with_undo
    rw [if_pos (by simp [hc1])]
  · unfold restore_deleted_section
    rw [if_pos (by simp [hc2])]

/-- C7 witness: on a single-root document, all three operations fail on the
absent id "blk_missing". -/
theorem C7_absent_id_fails_without_mutation_witness :
    write_section (fun _ => { root := "r", blocks := [], struct := [] })
        (fun d _ _ _ => (d, [])) 5
        { root := "r", blocks := [("r", { id := "r", content := "" })], struct := [("r", [])] }
        "blk_missing" "# hi" none =
      ({ success := false, section_id := "blk_missing", blocks_removed := [],
         blocks_added := [],
         error := some ("Section not found: " ++ "blk_missing") },
        { root := "r", blocks := [("r", { id := "r", content := "" })],
          struct := [("r", [])] }) ∧
    clear_section_with_undo 5 5
        { root := "r", blocks := [("r", { id := "r", content := "" })], struct := [("r", [])] }
        "blk_missing" =
      some (Except.error ("Section not found: " ++ "blk_missing")) ∧
    restore_deleted_section 5
        { root := "r", blocks := [("r", { id := "r", content := "" })], struct := [("r", [])] }
        { parent_id := "blk_missing" } =
      Except.error ("Parent section not found: " ++ "blk_missing") :=
  C7_absent_id_fails_without_mutation
    (fun _ => { root := "r", blocks := [], struct := [] }) (fun d _ _ _ => (d, []))
    5 5 5
    { root := "r", blocks := [("r", { id := "r", content := "" })], struct := [("r", [])] }
    "blk_missing" "# hi" none { parent_id := "blk_missing" } (by decide) (by decide)

/-! ## Claim C10: find_section_by_path -/

/-- Whether the block stored at `id` has a semantic role starting with
"heading" (the notion of "section heading" used by `find_section_by_path`). -/
def isHeadingId (doc : Doc) (id : String) : Prop :=
  ∃ b, Dict.lookup id doc.blocks = some b ∧
    pyStartsWith (b.metadata.semantic_role.getD "") "heading" = true

theorem headingMatchChild_sound (doc : Doc) (part : String) :
    ∀ (cs : List String) (found : String),
      headingMatchChild doc part cs = some found → isHeadingId doc found := by
  intro cs
  induction cs with
  | nil => intro found h; simp [headingMatchChild] at h
  | cons c rest ih =>
    intro found h
    rw [headingMatchChild] at h
    split at h
    · exact ih found h
    · rename_i block hb
      by_cases hcond : (pyStartsWith (block.metadata.semantic_role.getD "") "heading" &&
          pyStrip block.content == part) = true
      · rw [if_pos hcond] at h
        cases h
        rw [Bool.and_eq_true] at hcond
        exact ⟨block, hb, hcond.1⟩
      · rw [if_neg hcond] at h
        exact ih found h

theorem descendPath_sound (doc : Doc) :
    ∀ (parts : List String) (start r : String),
      descendPath doc parts start = some r → r = start ∨ isHeadingId doc r := by
  intro parts
  induction parts with
  | nil =>
    intro start r h
    rw [descendPath] at h
    cases h
    exact Or.inl rfl
  | cons p rest ih =>
    intro start r h
    rw [descendPath] at h
    split at h
    · exact absurd h (by simp)
    · rename_i found hfound
      split at h
      · exact absurd h (by simp)
      · rcases ih found r h with h1 | h2
        · exact Or.inr (h1 ▸ headingMatchChild_sound doc p _ found hfound)
        · exact Or.inr h2

/-- C10: `find_section_by_path` never returns the document root, and any id it
does return names a block whose semantic role value starts with "heading" —
each path component descends exactly one structure level to a heading child
whose stripped content equals the component (that is how `descendPath` and
`headingMatchChild` below are defined, mirroring the source loop). -/
theorem C10_find_section_by_path_heading_only (doc : Doc) (path : String) :
    find_section_by_path doc path ≠ some doc.root ∧
    (∀ id, find_section_by_path doc path = some id → isHeadingId doc id) := by
  unfold find_section_by_path
  by_cases hparts : ((pySplit path " > ").map pyStrip) = []
  · rw [if_pos hparts]
    exact ⟨by simp, by simp⟩
  · rw [if_neg hparts]
    constructor
    · intro h
      split at h
      · exact absurd h (by simp)
      · rename_i cur hcur
        by_cases hroot : cur ≠ doc.root
        · rw [if_pos hroot] at h
          cases h
          exact hroot rfl
        · rw [if_neg hroot] at h
          exact absurd h (by simp)
    · intro id h
      split at h
      · exact absurd h (by simp)
      · rename_i cur hcur
        by_cases hroot : cur ≠ doc.root
        · rw [if_pos hroot] at h
          cases h
          rcases descendPath_sound doc _ doc.root id hcur with h1 | h2
          · exact absurd h1 hroot
          · exact h2
        · rw [if_neg hroot] at h
          exact absurd h (by simp)

/-- C10 witness: a document with one heading child of the root; the path
"Intro" resolves to the heading block, which satisfies the heading property,
and is not the root. -/
theorem C10_find_section_by_path_heading_only_witness :
    find_section_by_path
        { root := "r",
          blocks := [("r", { id := "r", content := "" }),
                     ("h1", { id := "h1", content := " Intro ",
                              metadata := { semantic_role := some "heading1" },
                              children := [] })],
          struct := [("r", ["h1"]), ("h1", [])] } "Intro" ≠
      some "r" ∧
    isHeadingId
      { root := "r",
        blocks := [("r", { id := "r", content := "" }),
                   ("h1", { id := "h1", content := " Intro ",
                            metadata := { semantic_role := some "heading1" },
                            children := [] })],
        struct := [("r", ["h1"]), ("h1", [])] } "h1" := by
  have h := C10_find_section_by_path_heading_only
    { root := "r",
      blocks := [("r", { id := "r", content := "" }),
                 ("h1", { id := "h1", content := " Intro ",
                          metadata := { semantic_role := some "heading1" },
                          children := [] })],
      struct := [("r", ["h1"]), ("h1", [])] } "Intro"
  exact ⟨h.1, h.2 "h1" (by decide)⟩

/-! ## Context pruning (`context.py`) -/

/-- The `InclusionReason` enumeration of `context.py`. -/
inductive InclusionReason where
  | direct_reference
  | navigation_path
  | structural_context
  | semantic_relevance
  | external_decision
  | required_context
  deriving DecidableEq, Repr

/-- The `PruningPolicy` enumeration of `context.py`. -/
inductive PruningPolicy where
  | relevance_first
  | recency_first
  | redundancy_first
  deriving DecidableEq, Repr

/-- The `ContextBlock` dataclass of `context.py` (floats embedded as
rationals; only comparisons are performed on them). -/
structure ContextBlock where
  block_id : String
  inclusion_reason : InclusionReason
  relevance_score : Rat
  token_estimate : Nat
  access_count : Nat := 1
  last_accessed : Rat := 0
  compressed : Bool := false
  original_content : Option String := none
  deriving DecidableEq, Repr

/-- The `ContextConstraints` dataclass of `context.py`. -/
structure ContextConstraints where
  max_tokens : Nat := 4000
  max_blocks : Nat := 100
  max_depth : Nat := 10
  min_relevance : Rat := 0
  required_roles : List String := []
  excluded_tags : List String := []
  preserve_structure : Bool := true
  allow_compression : Bool := true
  deriving DecidableEq, Repr

/-- The `ContextMetadata` dataclass of `context.py`. -/
structure ContextMetadata where
  focus_area : Option String := none
  task_description : Option String := none
  created_at : Rat := 0
  last_modified : Rat := 0
  deriving DecidableEq, Repr

/-- The `ContextWindow` state of `context.py`: the block dict, constraints and
metadata. -/
structure ContextWindow where
  id : String
  blocks : Dict ContextBlock := []
  constraints : ContextConstraints := {}
  metadata : ContextMetadata := {}

/-- The `block_count` property of `ContextWindow`. -/
def ContextWindow.block_count (w : ContextWindow) : Nat :=
  w.blocks.length

/-- The `total_tokens` property of `ContextWindow`. -/
def ContextWindow.total_tokens (w : ContextWindow) : Nat :=
  (w.blocks.map (fun e => e.2.token_estimate)).sum

/-- Python's `min(xs, key=k)`: the first element attaining the minimum key
(later elements replace the current best only on strict decrease). -/
def pyMinBy (key : String × ContextBlock → Rat) :
    String × ContextBlock → List (String × ContextBlock) → String × ContextBlock
  | best, [] => best
  | best, x :: rest =>
    if key x < key best then pyMinBy key x rest else pyMinBy key best rest

/-- The method `ContextManager._find_block_to_remove` of `context.py`: for the
RELEVANCE_FIRST / RECENCY_FIRST policies, the non-focus block with minimal
relevance / last access time; every other policy falls through to `None`.
Python's `bid != focus` comparison of a string id to the optional focus is
`some bid ≠ focus`. -/
def findBlockToRemove (policy : PruningPolicy) (w : ContextWindow) : Option String :=
  let focus := w.metadata.focus_area
  match policy with
  | PruningPolicy.relevance_first =>
    match w.blocks.filter (fun e => some e.1 ≠ focus) with
    | [] => none
    | c :: cs => some (pyMinBy (fun e => e.2.relevance_score) c cs).1
  | PruningPolicy.recency_first =>
    match w.blocks.filter (fun e => some e.1 ≠ focus) with
    | [] => none
    | c :: cs => some (pyMinBy (fun e => e.2.last_accessed) c cs).1
  | PruningPolicy.redundancy_first => none

/-- The `while` loop of `ContextManager._prune_if_needed` in `context.py`:
while over budget, find a victim and delete it, else break; fuel-indexed,
`none` marking fuel exhaustion (an unfinished Python run). -/
def pruneLoop (policy : PruningPolicy) :
    Nat → ContextWindow → List String → Option (ContextWindow × List String)
  | 0, w, removed =>
    if w.block_count > w.constraints.max_blocks ∨
        w.total_tokens > w.constraints.max_tokens then
      match findBlockToRemove policy w with
      | some _ => none
      | none => some (w, removed)
    else some (w, removed)
  | fuel + 1, w, removed =>
    if w.block_count > w.constraints.max_blocks ∨
        w.total_tokens > w.constraints.max_tokens then
      match findBlockToRemove policy w with
      | some toRemove =>
        pruneLoop policy fuel { w with blocks := Dict.erase toRemove w.blocks }
          (removed ++ [toRemove])
      | none => some (w, removed)
    else some (w, removed)

/-- The method `ContextManager._prune_if_needed` of `context.py`. -/
def pruneIfNeeded (policy : PruningPolicy) (fuel : Nat) (w : ContextWindow) :
    Option (ContextWindow × List String) :=
  pruneLoop policy fuel w []

theorem pyMinBy_mem (key : String × ContextBlock → Rat) :
    ∀ (l : List (String × ContextBlock)) (best : String × ContextBlock),
      pyMinBy key best l ∈ best :: l := by
  intro l
  induction l with
  | nil => intro best; simp [pyMinBy]
  | cons x rest ih =>
    intro best
    rw [pyMinBy]
    by_cases hlt : key x < key best
    · rw [if_pos hlt]
      rcases List.mem_cons.1 (ih x) with h1 | h2
      · rw [h1]; simp
      · simp [h2]
    · rw [if_neg hlt]
      rcases List.mem_cons.1 (ih best) with h1 | h2
      · rw [h1]; simp
      · simp [h2]

theorem findBlockToRemove_not_focus (policy : PruningPolicy) (w : ContextWindow)
    (t : String) (h : findBlockToRemove policy w = some t) :
    some t ≠ w.metadata.focus_area ∧ (Dict.lookup t w.blocks).isSome = true := by
  have main : ∀ (key : String × ContextBlock → Rat),
      (match w.blocks.filter (fun e => some e.1 ≠ w.metadata.focus_area) with
       | [] => none
       | c :: cs => some (pyMinBy key c cs).1) = some t →
      some t ≠ w.metadata.focus_area ∧ (Dict.lookup t w.blocks).isSome = true := by
    intro key hm
    rcases hcand : w.blocks.filter (fun e => some e.1 ≠ w.metadata.focus_area) with
      _ | ⟨c, cs⟩
    · rw [hcand] at hm; exact absurd hm (by simp)
    · rw [hcand] at hm
      have hmem : pyMinBy key c cs ∈ c :: cs := pyMinBy_mem key cs c
      rw [← hcand] at hmem
      have hmem2 := List.mem_of_mem_filter hmem
      have hprop := List.of_mem_filter hmem
      have ht := Option.some.inj hm
      constructor
      · rw [← ht]
        simpa using hprop
      · rw [← ht]
        cases hminmem : pyMinBy key c cs with
        | mk a b =>
          rw [hminmem] at hmem2
          exact Dict.lookup_isSome_of_mem hmem2
  cases policy with
  | relevance_first => exact main (fun e => e.2.relevance_score) h
  | recency_first => exact main (fun e => e.2.last_accessed) h
  | redundancy_first => exact absurd h (by simp [findBlockToRemove])

theorem erase_length_lt {t : String} {d : Dict ContextBlock}
    (h : (Dict.lookup t d).isSome = true) :
    (Dict.erase t d).length < d.length := by
  apply List.length_filter_lt_length_iff_exists.2
  rcases Option.isSome_iff_exists.1 h with ⟨v, hv⟩
  exact ⟨(t, v), Dict.lookup_mem hv, by simp⟩

theorem pruneLoop_focus (policy : PruningPolicy) :
    ∀ (fuel : Nat) (w : ContextWindow) (acc : List String)
      (w' : ContextWindow) (removed : List String),
      pruneLoop policy fuel w acc = some (w', removed) →
      ∀ f, w.metadata.focus_area = some f →
        (∀ x ∈ removed, x ∉ acc → x ≠ f) ∧
        Dict.lookup f w'.blocks = Dict.lookup f w.blocks ∧
        w'.metadata = w.metadata := by
  intro fuel
  induction fuel with
  | zero =>
    intro w acc w' removed h f hf
    rw [pruneLoop] at h
    split at h
    · split at h
      · exact absurd h (by simp)
      · cases h
        exact ⟨fun x hx hnx => absurd hx hnx, rfl, rfl⟩
    · cases h
      exact ⟨fun x hx hnx => absurd hx hnx, rfl, rfl⟩
  | succ fuel ih =>
    intro w acc w' removed h f hf
    rw [pruneLoop] at h
    split at h
    · rcases hfind : findBlockToRemove policy w with _ | t
      · rw [hfind] at h
        cases h
        exact ⟨fun x hx hnx => absurd hx hnx, rfl, rfl⟩
      · rw [hfind] at h
        have hnf := (findBlockToRemove_not_focus policy w t hfind).1
        rw [hf] at hnf
        have htf : t ≠ f := fun he => hnf (by rw [he])
        have := ih { w with blocks := Dict.erase t w.blocks } (acc ++ [t]) w' removed h f hf
        refine ⟨?_, ?_, this.2.2⟩
        · intro x hx hnx
          have : x ∉ acc ++ [t] → x ≠ f := fun hna => this.1 x hx hna
          by_cases hxa : x ∈ acc ++ [t]
          · rcases List.mem_append.1 hxa with h1 | h2
            · exact absurd h1 hnx
            · rw [List.mem_singleton] at h2
              rw [h2]; exact htf
          · exact this hxa
        · rw [this.2.1]
          exact Dict.lookup_erase_ne t f w.blocks (fun he => htf he.symm)
    · cases h
      exact ⟨fun x hx hnx => absurd hx hnx, rfl, rfl⟩

theorem pruneLoop_terminates (policy : PruningPolicy) :
    ∀ (fuel : Nat) (w : ContextWindow) (acc : List String),
      w.blocks.length ≤ fuel → (pruneLoop policy fuel w acc).isSome = true := by
  intro fuel
  induction fuel with
  | zero =>
    intro w acc hlen
    have hempty : w.blocks = [] := List.length_eq_zero.1 (Nat.le_zero.1 hlen)
    rw [pruneLoop]
    have hc : ¬ (w.block_count > w.constraints.max_blocks ∨
        w.total_tokens > w.constraints.max_tokens) := by
      rw [ContextWindow.block_count, ContextWindow.total_tokens, hempty]
      simp
    rw [if_neg hc]
    rfl
  | succ fuel ih =>
    intro w acc hlen
    rw [pruneLoop]
    split
    · rcases hfind : findBlockToRemove policy w with _ | t
      · rfl
      · have hsome := (findBlockToRemove_not_focus policy w t hfind).2
        have hlt := erase_length_lt hsome
        apply ih { w with blocks := Dict.erase t w.blocks } (acc ++ [t])
        show (Dict.erase t w.blocks).length ≤ fuel
        omega
    · rfl

/-- C9: context pruning never evicts the focus block and always terminates:
for either of the RELEVANCE_FIRST / RECENCY_FIRST policies, the prune loop run
with fuel equal to the current block count completes (each iteration deletes
one present block, so the Python `while` always exits), and on any completed
run the focus block's context entry is exactly what it was before, every
removed id differs from the focus id, and the window metadata (hence the focus
area) is untouched. -/
theorem C9_prune_preserves_focus (policy : PruningPolicy) (fuel : Nat)
    (w : ContextWindow) (f : String)
    (_hpol : policy = PruningPolicy.relevance_first ∨
      policy = PruningPolicy.recency_first)
    (hf : w.metadata.focus_area = some f) :
    (pruneIfNeeded policy w.blocks.length w).isSome = true ∧
    (∀ w' removed, pruneIfNeeded policy fuel w = some (w', removed) →
      (∀ x ∈ removed, x ≠ f) ∧
      Dict.lookup f w'.blocks = Dict.lookup f w.blocks ∧
      w'.metadata.focus_area = some f) := by
  refine ⟨pruneLoop_terminates policy w.blocks.length w [] (le_refl _), ?_⟩
  intro w' removed h
  have := pruneLoop_focus policy fuel w [] w' removed h f hf
  refine ⟨fun x hx => this.1 x hx (by simp), this.2.1, ?_⟩
  rw [this.2.2, hf]

/-- C9 witness: a two-block window over budget (max one block) with focus
"blk_f"; pruning terminates, evicts only the non-focus block and keeps the
focus entry intact. -/
theorem C9_prune_preserves_focus_witness :
    (pruneIfNeeded PruningPolicy.relevance_first 2
        { id := "ctx",
          blocks := [("blk_f", { block_id := "blk_f",
                                 inclusion_reason := InclusionReason.direct_reference,
                                 relevance_score := 1, token_estimate := 10 }),
                     ("blk_o", { block_id := "blk_o",
                                 inclusion_reason := InclusionReason.structural_context,
                                 relevance_score := (1 : Rat) / 2, token_estimate := 10 })],
          constraints := { max_tokens := 4000, max_blocks := 1 },
          metadata := { focus_area := some "blk_f" } }).isSome = true ∧
    (∀ w' removed,
      pruneIfNeeded PruningPolicy.relevance_first 2
        { id := "ctx",
          blocks := [("blk_f", { block_id := "blk_f",
                                 inclusion_reason := InclusionReason.direct_reference,
                                 relevance_score := 1, token_estimate := 10 }),
                     ("blk_o", { block_id := "blk_o",
                                 inclusion_reason := InclusionReason.structural_context,
                                 relevance_score := (1 : Rat) / 2, token_estimate := 10 })],
          constraints := { max_tokens := 4000, max_blocks := 1 },
          metadata := { focus_area := some "blk_f" } } = some (w', removed) →
      (∀ x ∈ removed, x ≠ "blk_f")) := by
  have h := C9_prune_preserves_focus PruningPolicy.relevance_first 2
    { id := "ctx",
      blocks := [("blk_f", { block_id := "blk_f",
                             inclusion_reason := InclusionReason.direct_reference,
                             relevance_score := 1, token_estimate := 10 }),
                 ("blk_o", { block_id := "blk_o",
                             inclusion_reason := InclusionReason.structural_context,
                             relevance_score := (1 : Rat) / 2, token_estimate := 10 })],
      constraints := { max_tokens := 4000, max_blocks := 1 },
      metadata := { focus_area := some "blk_f" } }
    "blk_f" (Or.inl rfl) rfl
  exact ⟨h.1, fun w' removed hrun => (h.2 w' removed hrun).1⟩

/-! ## Traversal engine (`traversal.py`) -/

/-- The `NavigateDirection` enumeration of `traversal.py`. -/
inductive NavigateDirection where
  | down
  | up
  | both
  | siblings
  | breadth_first
  | depth_first
  deriving DecidableEq, Repr

/-- The `TraversalOutput` enumeration of `traversal.py`. -/
inductive TraversalOutput where
  | structure_only
  | structure_and_blocks
  | structure_with_previews
  deriving DecidableEq, Repr

/-- The `TraversalFilter` dataclass of `traversal.py`. -/
structure TraversalFilter where
  include_roles : List String := []
  exclude_roles : List String := []
  include_tags : List String := []
  exclude_tags : List String := []
  content_pattern : Option String := none

/-- The `TraversalNode` dataclass of `traversal.py`. -/
structure TraversalNode where
  id : String
  depth : Nat
  parent_id : Option String
  content_preview : Option String
  semantic_role : Option String
  child_count : Nat
  edge_count : Nat

/-- The `TraversalSummary` dataclass of `traversal.py`. -/
structure TraversalSummary where
  total_nodes : Nat
  total_edges : Nat
  max_depth : Nat
  nodes_by_role : Dict Nat := []
  truncated : Bool := false
  truncation_reason : Option String := none

/-- The `TraversalResult` dataclass of `traversal.py` (paths unused by
navigate). -/
structure TraversalResult where
  nodes : List TraversalNode
  paths : List (List String)
  summary : TraversalSummary

/-- The `TraversalConfig` dataclass of `traversal.py`. -/
structure TraversalConfig where
  max_depth : Nat := 100
  max_nodes : Nat := 10000
  default_preview_length : Nat := 100

/-- Python `str.lower()` (per character). -/
def pyLower (s : String) : String :=
  String.mk (s.data.map Char.toLower)

/-- Contiguous-sublist (substring) test, structurally recursive. -/
def listInfix (needle : List Char) : List Char → Bool
  | [] => needle.isEmpty
  | c :: rest => needle.isPrefixOf (c :: rest) || listInfix needle rest

/-- Python `needle in hay` on strings: contiguous substring test. -/
def pyInStr (needle hay : String) : Bool :=
  listInfix needle.data hay.data

/-- The method `TraversalEngine._matches_filter` of `traversal.py` (role and
tag inclusion/exclusion, then case-insensitive substring match; Python's `if
filter.content_pattern` treats an empty pattern as absent). -/
def matchesFilter (block : Block) (filt : TraversalFilter) : Bool :=
  let role := block.metadata.semantic_role.getD ""
  let tags := block.metadata.tags
  if filt.include_roles ≠ [] ∧ role ∉ filt.include_roles then false
  else if filt.exclude_roles ≠ [] ∧ role ∈ filt.exclude_roles then false
  else if filt.include_tags ≠ [] ∧ ¬ (filt.include_tags.any (fun t => tags.contains t)) then
    false
  else if filt.exclude_tags ≠ [] ∧ filt.exclude_tags.any (fun t => tags.contains t) then
    false
  else
    match filt.content_pattern with
    | none => true
    | some pat =>
      if pat = "" then true
      else pyInStr (pyLower pat) (pyLower block.content)

/-- The method `TraversalEngine._create_node` of `traversal.py`. -/
def createNode (cfg : TraversalConfig) (doc : Doc) (blockId : String) (depth : Nat)
    (parentId : Option String) (output : TraversalOutput) : TraversalNode :=
  let block := Dict.lookup blockId doc.blocks
  let childList := doc.children blockId
  let contentPreview :=
    match output, block with
    | TraversalOutput.structure_only, _ => none
    | _, none => none
    | _, some b =>
      if b.content.data.length > cfg.default_preview_length then
        some (String.mk (b.content.data.take cfg.default_preview_length) ++ "...")
      else some b.content
  let semanticRole := match block with
    | some b => b.metadata.semantic_role
    | none => none
  let edgeCount := match block with
    | some b => b.edges.length
    | none => 0
  { id := blockId, depth := depth, parent_id := parentId,
    content_preview := contentPreview, semantic_role := semanticRole,
    child_count := childList.length, edge_count := edgeCount }

/-- Python's `if node.semantic_role:` bump of the `nodes_by_role` counter
(None and "" are both falsy). -/
def bumpRole (roles : Dict Nat) : Option String → Dict Nat
  | none => roles
  | some r => if r = "" then roles else Dict.set r (Dict.lookupD r roles 0 + 1) roles

/-- The child-enqueue step of the BFS loop: the not-yet-visited children of
the current node, as (id, parent, depth + 1) queue entries. -/
def bfsChildEntries (doc : Doc) (visited1 : List String) (nodeId : String)
    (depth : Nat) : List (String × Option String × Nat) :=
  ((doc.children nodeId).filter (fun c => ¬ visited1.contains c)).map
    (fun c => (c, some nodeId, depth + 1))

theorem bfsChildEntries_length (doc : Doc) (visited1 : List String)
    (nodeId : String) (depth : Nat) :
    (bfsChildEntries doc visited1 nodeId depth).length ≤
      (doc.children nodeId).length := by
  rw [bfsChildEntries, List.length_map]
  exact List.length_filter_le _ _

/-- The BFS loop of `TraversalEngine._traverse_bfs`: queue of (id, parent,
depth) triples popped from the front, a visited set, the accumulated node list
and role counters.  Exits when the queue empties or the node budget is
reached; `none` is fuel exhaustion.  Children are enqueued at the back, only
from nodes that exist and pass the filter, and only if unvisited. -/
def bfsLoop (cfg : TraversalConfig) (doc : Doc) (maxDepth : Nat)
    (filt : TraversalFilter) (output : TraversalOutput) :
    Nat → List (String × Option String × Nat) → List String → List TraversalNode →
      Dict Nat → Option (List TraversalNode × Dict Nat)
  | _, [], _, nodes, roles => some (nodes, roles)
  | fuel, (nodeId, parentId, depth) :: rest, visited, nodes, roles =>
    if nodes.length ≥ cfg.max_nodes then some (nodes, roles)
    else
      match fuel with
      | 0 => none
      | fuel + 1 =>
        if depth > maxDepth ∨ visited.contains nodeId then
          bfsLoop cfg doc maxDepth filt output fuel rest visited nodes roles
        else
          match Dict.lookup nodeId doc.blocks with
          | some block =>
            if matchesFilter block filt then
              let node := createNode cfg doc nodeId depth parentId output
              bfsLoop cfg doc maxDepth filt output fuel
                (rest ++ bfsChildEntries doc (nodeId :: visited) nodeId depth)
                (nodeId :: visited) (nodes ++ [node])
                (bumpRole roles node.semantic_role)
            else bfsLoop cfg doc maxDepth filt output fuel rest (nodeId :: visited) nodes roles
          | none => bfsLoop cfg doc maxDepth filt output fuel rest (nodeId :: visited) nodes roles

/-- The method `TraversalEngine._traverse_bfs` of `traversal.py`. -/
def traverseBfs (cfg : TraversalConfig) (doc : Doc) (start : String) (maxDepth : Nat)
    (filt : TraversalFilter) (output : TraversalOutput) (fuel : Nat) :
    Option TraversalResult :=
  match bfsLoop cfg doc maxDepth filt output fuel [(start, none, 0)] [] [] [] with
  | none => none
  | some (nodes, roles) =>
    some { nodes := nodes, paths := [],
           summary := { total_nodes := nodes.length, total_edges := 0,
                        max_depth := (nodes.map (fun n => n.depth)).foldl max 0,
                        nodes_by_role := roles,
                        truncated := nodes.length ≥ cfg.max_nodes } }

/-- The recursion `TraversalEngine._dfs_recursive` of `traversal.py`.  The
fuel is the remaining depth budget: the top-level call uses
`fuel = max_depth + 1` at `depth = 0` and every recursive call keeps
`fuel = max_depth + 1 - depth`, so the fuel-0 base case coincides exactly with
the source's `depth > max_depth` early return. -/
def dfsRec (cfg : TraversalConfig) (doc : Doc) (maxDepth : Nat)
    (filt : TraversalFilter) (output : TraversalOutput) :
    Nat → String → Option String → Nat → List String → List TraversalNode →
      Dict Nat → List String × List TraversalNode × Dict Nat
  | 0, _, _, _, visited, nodes, roles => (visited, nodes, roles)
  | fuel + 1, nodeId, parentId, depth, visited, nodes, roles =>
    if depth > maxDepth ∨ visited.contains nodeId ∨ nodes.length ≥ cfg.max_nodes then
      (visited, nodes, roles)
    else
      let visited1 := nodeId :: visited
      match Dict.lookup nodeId doc.blocks with
      | some block =>
        if matchesFilter block filt then
          let node := createNode cfg doc nodeId depth parentId output
          (doc.children nodeId).foldl
            (fun acc c =>
              dfsRec cfg doc maxDepth filt output fuel c (some nodeId) (depth + 1)
                acc.1 acc.2.1 acc.2.2)
            (visited1, nodes ++ [node], bumpRole roles node.semantic_role)
        else (visited1, nodes, roles)
      | none => (visited1, nodes, roles)

/-- The method `TraversalEngine._traverse_dfs` of `traversal.py` (total: the
recursion depth is bounded by the depth limit). -/
def traverseDfs (cfg : TraversalConfig) (doc : Doc) (start : String) (maxDepth : Nat)
    (filt : TraversalFilter) (output : TraversalOutput) : TraversalResult :=
  let r := dfsRec cfg doc maxDepth filt output (maxDepth + 1) start none 0 [] [] []
  { nodes := r.2.1, paths := [],
    summary := { total_nodes := r.2.1.length, total_edges := 0,
                 max_depth := (r.2.1.map (fun n => n.depth)).foldl max 0,
                 nodes_by_role := r.2.2 } }

/-- The method `TraversalEngine.navigate` of `traversal.py`, for the
directions the claims exercise (BREADTH_FIRST, DOWN and DEPTH_FIRST; the
up/siblings/both branches call separate helpers no claim mentions and are left
out).  Python's falsy-on-`0`/`None` idioms `start_id or doc.root` and
`min(depth or max_depth, max_depth)` are embedded explicitly. -/
def navigateFuel (cfg : TraversalConfig) (doc : Doc) (startId : Option String)
    (direction : NavigateDirection) (depthOpt : Option Nat)
    (filt : TraversalFilter) (output : TraversalOutput) (fuel : Nat) :
    Option TraversalResult :=
  let start := match startId with
    | none => doc.root
    | some s => if s = "" then doc.root else s
  let depthOrDefault := match depthOpt with
    | none => cfg.max_depth
    | some d => if d = 0 then cfg.max_depth else d
  let maxDepth := min depthOrDefault cfg.max_depth
  match direction with
  | NavigateDirection.breadth_first => traverseBfs cfg doc start maxDepth filt output fuel
  | NavigateDirection.down => traverseBfs cfg doc start maxDepth filt output fuel
  | NavigateDirection.depth_first => some (traverseDfs cfg doc start maxDepth filt output)
  | _ => none

/-- The BFS termination potential: pending queue entries plus the child-list
lengths of every not-yet-visited structure entry.  Each loop iteration
strictly decreases it, over any document — cyclic structures included. -/
def structPotential (doc : Doc) (visited : List String) : Nat :=
  (doc.struct.map (fun e => if e.1 ∈ visited then 0 else e.2.length)).sum

/-- The fuel that provably suffices for the BFS loop from a fresh start. -/
def bfsFuelBound (doc : Doc) : Nat :=
  structPotential doc [] + 1

theorem potTerm_le (k : String) (visited : List String) (x : String × List String) :
    (if x.1 ∈ k :: visited then 0 else x.2.length) ≤
      (if x.1 ∈ visited then 0 else x.2.length) := by
  by_cases h : x.1 ∈ visited
  · simp [h]
  · by_cases h2 : x.1 ∈ k :: visited
    · simp [h, h2]
    · simp [h, h2]

theorem structPotential_cons_le (doc : Doc) (visited : List String) (k : String) :
    structPotential doc (k :: visited) ≤ structPotential doc visited := by
  apply List.sum_le_sum
  intro e _
  exact potTerm_le k visited e

theorem potAux (k : String) (visited : List String) (hk : k ∉ visited) :
    ∀ (l : List (String × List String)),
      (l.map (fun e => if e.1 ∈ k :: visited then 0 else e.2.length)).sum +
          (Dict.lookupD k l []).length ≤
        (l.map (fun e => if e.1 ∈ visited then 0 else e.2.length)).sum := by
  intro l
  induction l with
  | nil => simp [Dict.lookupD, Dict.lookup]
  | cons e rest ih =>
    by_cases he : e.1 = k
    · have hnew : e.1 ∈ k :: visited := by simp [he]
      have hold : e.1 ∉ visited := he ▸ hk
      have hlk : Dict.lookupD k (e :: rest) [] = e.2 := by
        simp [Dict.lookupD, Dict.lookup, he]
      rw [hlk]
      simp only [List.map_cons, List.sum_cons, if_pos hnew, if_neg hold]
      have hmono : ((rest.map (fun e => if e.1 ∈ k :: visited then 0
          else e.2.length)).sum : Nat) ≤
          (rest.map (fun e => if e.1 ∈ visited then 0 else e.2.length)).sum := by
        apply List.sum_le_sum
        intro x _
        exact potTerm_le k visited x
      omega
    · have hsame : (e.1 ∈ k :: visited) ↔ (e.1 ∈ visited) := by
        simp [List.mem_cons, he]
      have hlk : Dict.lookupD k (e :: rest) [] = Dict.lookupD k rest [] := by
        simp [Dict.lookupD, Dict.lookup, he]
      rw [hlk]
      simp only [List.map_cons, List.sum_cons]
      rw [if_congr hsame rfl rfl]
      have := ih
      omega

theorem structPotential_visit (doc : Doc) (visited : List String) (k : String)
    (hk : k ∉ visited) :
    structPotential doc (k :: visited) + (doc.children k).length ≤
      structPotential doc visited :=
  potAux k visited hk doc.struct

theorem bfsLoop_isSome (cfg : TraversalConfig) (doc : Doc) (maxDepth : Nat)
    (filt : TraversalFilter) (output : TraversalOutput) :
    ∀ (fuel : Nat) (queue : List (String × Option String × Nat))
      (visited : List String) (nodes : List TraversalNode) (roles : Dict Nat),
      structPotential doc visited + queue.length ≤ fuel →
      (bfsLoop cfg doc maxDepth filt output fuel queue visited nodes roles).isSome = true := by
  intro fuel
  induction fuel with
  | zero =>
    intro queue visited nodes roles h
    match queue with
    | [] => rfl
    | (nodeId, parentId, depth) :: rest =>
      simp only [List.length_cons] at h
      omega
  | succ fuel ih =>
    intro queue visited nodes roles h
    match queue with
    | [] => rfl
    | (nodeId, parentId, depth) :: rest =>
      rw [bfsLoop]
      by_cases hmax : nodes.length ≥ cfg.max_nodes
      · rw [if_pos hmax]; rfl
      · rw [if_neg hmax]
        simp only [List.length_cons] at h
        by_cases hskip : depth > maxDepth ∨ visited.contains nodeId
        · rw [if_pos hskip]
          exact ih rest visited nodes roles (by omega)
        · rw [if_neg hskip]
          have hnv : nodeId ∉ visited := by
            intro hmem
            exact hskip (Or.inr (by simpa using hmem))
          have hpot := structPotential_visit doc visited nodeId hnv
          split
          · rename_i block hblk
            by_cases hfm : matchesFilter block filt = true
            · rw [if_pos hfm]
              have hlen := bfsChildEntries_length doc (nodeId :: visited) nodeId depth
              apply ih
              rw [List.length_append]
              omega
            · rw [if_neg hfm]
              exact ih rest (nodeId :: visited) nodes roles
                (by have := structPotential_cons_le doc visited nodeId; omega)
          · exact ih rest (nodeId :: visited) nodes roles
              (by have := structPotential_cons_le doc visited nodeId; omega)

theorem foldlPreserve {α β : Type} (P : β → Prop) (f : β → α → β)
    (hf : ∀ b a, P b → P (f b a)) :
    ∀ (l : List α) (b : β), P b → P (l.foldl f b) := by
  intro l
  induction l with
  | nil => intro b h; exact h
  | cons x rest ih => intro b h; exact ih _ (hf b x h)

theorem bfsLoop_props (cfg : TraversalConfig) (doc : Doc) (maxDepth : Nat)
    (filt : TraversalFilter) (output : TraversalOutput) :
    ∀ (fuel : Nat) (queue : List (String × Option String × Nat))
      (visited : List String) (nodes : List TraversalNode) (roles : Dict Nat)
      (out : List TraversalNode × Dict Nat),
      bfsLoop cfg doc maxDepth filt output fuel queue visited nodes roles = some out →
      (∀ n ∈ nodes, n.id ∈ visited) →
      (nodes.map (fun n => n.id)).Nodup →
      nodes.length ≤ cfg.max_nodes →
      (out.1.map (fun n => n.id)).Nodup ∧ out.1.length ≤ cfg.max_nodes := by
  intro fuel
  induction fuel with
  | zero =>
    intro queue visited nodes roles out h hmem hnd hlen
    match queue with
    | [] =>
      rw [bfsLoop] at h
      cases h
      exact ⟨hnd, hlen⟩
    | (nodeId, parentId, depth) :: rest =>
      rw [bfsLoop] at h
      by_cases hmax : nodes.length ≥ cfg.max_nodes
      · rw [if_pos hmax] at h
        cases h
        exact ⟨hnd, hlen⟩
      · rw [if_neg hmax] at h
        exact absurd h (by simp)
  | succ fuel ih =>
    intro queue visited nodes roles out h hmem hnd hlen
    match queue with
    | [] =>
      rw [bfsLoop] at h
      cases h
      exact ⟨hnd, hlen⟩
    | (nodeId, parentId, depth) :: rest =>
      rw [bfsLoop] at h
      by_cases hmax : nodes.length ≥ cfg.max_nodes
      · rw [if_pos hmax] at h
        cases h
        exact ⟨hnd, hlen⟩
      · rw [if_neg hmax] at h
        by_cases hskip : depth > maxDepth ∨ visited.contains nodeId
        · rw [if_pos hskip] at h
          exact ih rest visited nodes roles out h hmem hnd hlen
        · rw [if_neg hskip] at h
          have hnv : nodeId ∉ visited := by
            intro hm
            exact hskip (Or.inr (by simpa using hm))
          split at h
          · rename_i block hblk
            by_cases hfm : matchesFilter block filt = true
            · rw [if_pos hfm] at h
              apply ih _ _ _ _ _ h
              · intro n hn
                rcases List.mem_append.1 hn with h1 | h2
                · exact List.mem_cons_of_mem _ (hmem n h1)
                · rw [List.mem_singleton] at h2
                  rw [h2]
                  exact List.mem_cons_self _ _
              · rw [List.map_append]
                rw [List.nodup_append]
                refine ⟨hnd, by simp, ?_⟩
                intro x hx
                simp only [List.map_cons, List.map_nil, List.mem_singleton]
                intro heq
                rcases List.mem_map.1 hx with ⟨n, hn, hid⟩
                have : x ∈ visited := hid ▸ hmem n hn
                rw [heq] at this
                exact hnv this
              · rw [List.length_append]
                simp only [List.length_singleton]
                omega
            · rw [if_neg hfm] at h
              exact ih _ _ _ _ _ h
                (fun n hn => List.mem_cons_of_mem _ (hmem n hn)) hnd hlen
          · exact ih _ _ _ _ _ h
              (fun n hn => List.mem_cons_of_mem _ (hmem n hn)) hnd hlen

theorem dfsRec_props (cfg : TraversalConfig) (doc : Doc) (maxDepth : Nat)
    (filt : TraversalFilter) (output : TraversalOutput) :
    ∀ (fuel : Nat) (nodeId : String) (parentId : Option String) (depth : Nat)
      (visited : List String) (nodes : List TraversalNode) (roles : Dict Nat),
      (∀ n ∈ nodes, n.id ∈ visited) →
      (nodes.map (fun n => n.id)).Nodup →
      nodes.length ≤ cfg.max_nodes →
      (∀ n ∈ (dfsRec cfg doc maxDepth filt output fuel nodeId parentId depth
          visited nodes roles).2.1,
        n.id ∈ (dfsRec cfg doc maxDepth filt output fuel nodeId parentId depth
          visited nodes roles).1) ∧
      ((dfsRec cfg doc maxDepth filt output fuel nodeId parentId depth
          visited nodes roles).2.1.map (fun n => n.id)).Nodup ∧
      (dfsRec cfg doc maxDepth filt output fuel nodeId parentId depth
          visited nodes roles).2.1.length ≤ cfg.max_nodes ∧
      (∀ x ∈ visited, x ∈ (dfsRec cfg doc maxDepth filt output fuel nodeId parentId
          depth visited nodes roles).1) := by
  intro fuel
  induction fuel with
  | zero =>
    intro nodeId parentId depth visited nodes roles hmem hnd hlen
    exact ⟨hmem, hnd, hlen, fun x hx => hx⟩
  | succ fuel ih =>
    intro nodeId parentId depth visited nodes roles hmem hnd hlen
    rw [dfsRec]
    by_cases hguard : depth > maxDepth ∨ visited.contains nodeId ∨
        nodes.length ≥ cfg.max_nodes
    · rw [if_pos hguard]
      exact ⟨hmem, hnd, hlen, fun x hx => hx⟩
    · rw [if_neg hguard]
      have hnv : nodeId ∉ visited := by
        intro hm
        exact hguard (Or.inr (Or.inl (by simpa using hm)))
      have hlt : nodes.length < cfg.max_nodes := by
        rcases Nat.lt_or_ge nodes.length cfg.max_nodes with h1 | h2
        · exact h1
        · exact absurd (Or.inr (Or.inr h2)) hguard
      split
      · rename_i block hblk
        by_cases hfm : matchesFilter block filt = true
        · rw [if_pos hfm]
          have hP := foldlPreserve
            (fun acc : List String × List TraversalNode × Dict Nat =>
              (∀ n ∈ acc.2.1, n.id ∈ acc.1) ∧
              (acc.2.1.map (fun n => n.id)).Nodup ∧
              acc.2.1.length ≤ cfg.max_nodes ∧
              (∀ x ∈ visited, x ∈ acc.1))
            (fun acc c =>
              dfsRec cfg doc maxDepth filt output fuel c (some nodeId) (depth + 1)
                acc.1 acc.2.1 acc.2.2)
            (by
              intro acc c hacc
              have := ih c (some nodeId) (depth + 1) acc.1 acc.2.1 acc.2.2
                hacc.1 hacc.2.1 hacc.2.2.1
              exact ⟨this.1, this.2.1, this.2.2.1,
                fun x hx => this.2.2.2 x (hacc.2.2.2 x hx)⟩)
            (doc.children nodeId)
            (nodeId :: visited,
              nodes ++ [createNode cfg doc nodeId depth parentId output],
              bumpRole roles (createNode cfg doc nodeId depth parentId output).semantic_role)
            (by
              refine ⟨?_, ?_, ?_, ?_⟩
              · intro n hn
                rcases List.mem_append.1 hn with h1 | h2
                · exact List.mem_cons_of_mem _ (hmem n h1)
                · rw [List.mem_singleton] at h2
                  rw [h2]
                  exact List.mem_cons_self _ _
              · rw [List.map_append, List.nodup_append]
                refine ⟨hnd, by simp, ?_⟩
                intro x hx
                simp only [List.map_cons, List.map_nil, List.mem_singleton]
                intro heq
                rcases List.mem_map.1 hx with ⟨n, hn, hid⟩
                have : x ∈ visited := hid ▸ hmem n hn
                rw [heq] at this
                exact hnv this
              · rw [List.length_append]
                simp only [List.length_singleton]
                omega
              · intro x hx
                exact List.mem_cons_of_mem _ hx)
          exact ⟨hP.1, hP.2.1, hP.2.2.1, hP.2.2.2⟩
        · rw [if_neg hfm]
          exact ⟨fun n hn => List.mem_cons_of_mem _ (hmem n hn), hnd, hlen,
            fun x hx => List.mem_cons_of_mem _ hx⟩
      · exact ⟨fun n hn => List.mem_cons_of_mem _ (hmem n hn), hnd, hlen,
          fun x hx => List.mem_cons_of_mem _ hx⟩

theorem traverseBfs_total (cfg : TraversalConfig) (doc : Doc) (start : String)
    (maxDepth : Nat) (filt : TraversalFilter) (output : TraversalOutput) :
    ∃ r, traverseBfs cfg doc start maxDepth filt output (bfsFuelBound doc) = some r ∧
      (r.nodes.map (fun n => n.id)).Nodup ∧ r.nodes.length ≤ cfg.max_nodes := by
  have hs := bfsLoop_isSome cfg doc maxDepth filt output (bfsFuelBound doc)
    [(start, none, 0)] [] [] [] (by rw [bfsFuelBound]; simp)
  rcases Option.isSome_iff_exists.1 hs with ⟨out, hout⟩
  have hprops := bfsLoop_props cfg doc maxDepth filt output (bfsFuelBound doc)
    [(start, none, 0)] [] [] [] out hout (by simp) (by simp) (by simp)
  refine ⟨{ nodes := out.1, paths := [],
            summary := { total_nodes := out.1.length, total_edges := 0,
                         max_depth := (out.1.map (fun n => n.depth)).foldl max 0,
                         nodes_by_role := out.2,
                         truncated := out.1.length ≥ cfg.max_nodes } }, ?_, hprops.1, hprops.2⟩
  rw [traverseBfs, hout]

theorem traverseDfs_props (cfg : TraversalConfig) (doc : Doc) (start : String)
    (maxDepth : Nat) (filt : TraversalFilter) (output : TraversalOutput) :
    ((traverseDfs cfg doc start maxDepth filt output).nodes.map
        (fun n => n.id)).Nodup ∧
      (traverseDfs cfg doc start maxDepth filt output).nodes.length ≤
        cfg.max_nodes := by
  have h := dfsRec_props cfg doc maxDepth filt output (maxDepth + 1) start none 0
    [] [] [] (by simp) (by simp) (by simp)
  exact ⟨h.2.1, h.2.2.1⟩

/-- C8: `TraversalEngine.navigate` with BREADTH_FIRST or DEPTH_FIRST always
terminates — for any document whatsoever, cyclic `structure` maps and blocks
reachable through multiple parents included — and returns a node list with
pairwise distinct ids of length at most `config.max_nodes`: the visited set
lets each block id be visited at most once, the BFS potential (pending queue
plus unvisited child-list mass, `bfsFuelBound`) strictly decreases every
iteration, and the DFS recursion depth is bounded by the depth limit. -/
theorem C8_navigate_terminates_bounded (cfg : TraversalConfig) (doc : Doc)
    (startId : Option String) (depthOpt : Option Nat) (filt : TraversalFilter)
    (output : TraversalOutput) :
    (∃ r, navigateFuel cfg doc startId NavigateDirection.breadth_first depthOpt filt
        output (bfsFuelBound doc) = some r ∧
      (r.nodes.map (fun n => n.id)).Nodup ∧ r.nodes.length ≤ cfg.max_nodes) ∧
    (∃ r, navigateFuel cfg doc startId NavigateDirection.depth_first depthOpt filt
        output (bfsFuelBound doc) = some r ∧
      (r.nodes.map (fun n => n.id)).Nodup ∧ r.nodes.length ≤ cfg.max_nodes) := by
  constructor
  · rcases traverseBfs_total cfg doc
      (match startId with
       | none => doc.root
       | some s => if s = "" then doc.root else s)
      (min (match depthOpt with
            | none => cfg.max_depth
            | some d => if d = 0 then cfg.max_depth else d) cfg.max_depth)
      filt output with ⟨r, hr, hnd, hlen⟩
    exact ⟨r, hr, hnd, hlen⟩
  · refine ⟨traverseDfs cfg doc
      (match startId with
       | none => doc.root
       | some s => if s = "" then doc.root else s)
      (min (match depthOpt with
            | none => cfg.max_depth
            | some d => if d = 0 then cfg.max_depth else d) cfg.max_depth)
      filt output, rfl, ?_⟩
    exact traverseDfs_props cfg doc _ _ filt output

/-! ## Claim C4: structure/children denormalization -/

/-- The denormalization invariant of the claim: every present block's
structure entry (`doc.structure.get(id, [])`) equals the block's own
`children` list. -/
def syncProp (doc : Doc) : Prop :=
  ∀ k b, Dict.lookup k doc.blocks = some b →
    Dict.lookupD k doc.struct [] = b.children

theorem setStructPair_lookup_ne (k k' : String) (cs : List String) (doc : Doc)
    (h : k' ≠ k) :
    Dict.lookup k' (setStructPair k cs doc).blocks = Dict.lookup k' doc.blocks ∧
    Dict.lookup k' (setStructPair k cs doc).struct = Dict.lookup k' doc.struct := by
  rw [setStructPair]
  split
  · exact ⟨Dict.lookup_set_ne _ _ _ _ h, Dict.lookup_set_ne _ _ _ _ h⟩
  · exact ⟨rfl, Dict.lookup_set_ne _ _ _ _ h⟩

theorem setStructPair_syncedAt (k : String) (cs : List String) (doc : Doc) :
    ∀ b, Dict.lookup k (setStructPair k cs doc).blocks = some b →
      Dict.lookupD k (setStructPair k cs doc).struct [] = b.children := by
  intro b hb
  rw [setStructPair] at hb ⊢
  rcases hk : Dict.lookup k { doc with struct := Dict.set k cs doc.struct }.blocks with
    _ | b0
  · rw [hk] at hb ⊢
    rw [Dict.lookupD]
    simp only [Dict.lookup_set_self]
    have : Dict.lookup k doc.blocks = none := hk
    rw [this] at hb
    exact absurd hb (by simp)
  · rw [hk] at hb ⊢
    simp only at hb ⊢
    rw [Dict.lookup_set_self] at hb
    cases hb
    rw [Dict.lookupD]
    simp only [Dict.lookup_set_self]
    rfl

theorem setStructPair_sync (k : String) (cs : List String) (doc : Doc)
    (h : syncProp doc) : syncProp (setStructPair k cs doc) := by
  intro k' b hb
  by_cases hk : k' = k
  · subst hk
    exact setStructPair_syncedAt k' cs doc b hb
  · have hpair := setStructPair_lookup_ne k k' cs doc hk
    rw [hpair.1] at hb
    rw [Dict.lookupD, hpair.2]
    exact h k' b hb

theorem removeFromParent_sync (doc : Doc) (blockId : String) (h : syncProp doc) :
    syncProp (removeFromParent doc blockId) := by
  rw [removeFromParent]
  split
  · split
    · exact setStructPair_sync _ _ _ h
    · exact h
  · exact h

theorem eraseBoth_sync (doc : Doc) (blockId : String) (h : syncProp doc) :
    syncProp (eraseBoth doc blockId) := by
  intro k b hb
  rw [eraseBoth] at hb ⊢
  simp only at hb ⊢
  by_cases hk : k = blockId
  · subst hk
    rw [Dict.lookup_erase_self] at hb
    exact absurd hb (by simp)
  · rw [Dict.lookup_erase_ne _ _ _ hk] at hb
    rw [Dict.lookupD, Dict.lookup_erase_ne _ _ _ hk]
    exact h k b hb

theorem removeSubtree_sync : ∀ (fuel : Nat) (doc : Doc) (id : String),
    syncProp doc → syncProp (removeSubtree fuel doc id).1 := by
  intro fuel
  induction fuel with
  | zero => intro doc id h; exact h
  | succ fuel ih =>
    intro doc id h
    rw [removeSubtree]
    split
    · exact h
    · rename_i block hblk
      have hfold : syncProp (block.children.foldl
          (fun acc c =>
            let r := removeSubtree fuel acc.1 c
            (r.1, acc.2 ++ r.2))
          (doc, ([] : List String))).1 := by
        have := foldlPreserve (fun acc : Doc × List String => syncProp acc.1)
          (fun acc c =>
            let r := removeSubtree fuel acc.1 c
            (r.1, acc.2 ++ r.2))
          (fun acc c hacc => ih acc.1 c hacc)
          block.children (doc, []) h
        exact this
      exact eraseBoth_sync _ _ (removeFromParent_sync _ _ hfold)

theorem clearSectionChildren_sync (fuel : Nat) (doc : Doc) (sectionId : String)
    (h : syncProp doc) : syncProp (clearSectionChildren fuel doc sectionId).1 := by
  rw [clearSectionChildren]
  apply setStructPair_sync
  have := foldlPreserve (fun acc : Doc × List String => syncProp acc.1)
    (fun acc c =>
      let r := removeSubtree fuel acc.1 c
      (r.1, acc.2 ++ r.2))
    (fun acc c hacc => removeSubtree_sync fuel acc.1 c hacc)
    (doc.children sectionId) (doc, []) h
  exact this

theorem setStructPair_self_char (k : String) (cs : List String) (doc : Doc) :
    Dict.lookup k (setStructPair k cs doc).struct = some cs ∧
    (∀ b, Dict.lookup k (setStructPair k cs doc).blocks = some b →
      b.children = cs) := by
  have h2 : Dict.lookup k (setStructPair k cs doc).struct = some cs := by
    rw [setStructPair]
    split
    · exact Dict.lookup_set_self _ _ _
    · exact Dict.lookup_set_self _ _ _
  refine ⟨h2, ?_⟩
  intro b hb
  have h1 := setStructPair_syncedAt k cs doc b hb
  rw [Dict.lookupD, h2] at h1
  simpa using h1.symm

theorem blocksFold_struct (entries : List (String × Block)) :
    ∀ (acc : Doc × List String),
      ((entries.foldl (fun acc e =>
          ({ acc.1 with blocks := Dict.set e.1 e.2 acc.1.blocks }, acc.2 ++ [e.1]))
        acc).1).struct = acc.1.struct := by
  induction entries with
  | nil => intro acc; rfl
  | cons e rest ih =>
    intro acc
    rw [List.foldl_cons, ih]

theorem blocksFold_blocks_not_mem (entries : List (String × Block)) :
    ∀ (acc : Doc × List String) (k : String), k ∉ entries.map Prod.fst →
      Dict.lookup k ((entries.foldl (fun acc e =>
          ({ acc.1 with blocks := Dict.set e.1 e.2 acc.1.blocks }, acc.2 ++ [e.1]))
        acc).1).blocks = Dict.lookup k acc.1.blocks := by
  induction entries with
  | nil => intro acc k _; rfl
  | cons e rest ih =>
    intro acc k hk
    simp only [List.map_cons, List.mem_cons] at hk
    push_neg at hk
    rw [List.foldl_cons, ih _ k hk.2]
    exact Dict.lookup_set_ne _ _ _ _ hk.1

theorem structFold_untouched (parent : String) (entries : List (String × List String)) :
    ∀ (d : Doc) (k : String), (k = parent ∨ k ∉ entries.map Prod.fst) →
      Dict.lookup k (entries.foldl (fun acc e =>
          if e.1 ≠ parent then setStructPair e.1 e.2 acc else acc) d).struct =
        Dict.lookup k d.struct ∧
      Dict.lookup k (entries.foldl (fun acc e =>
          if e.1 ≠ parent then setStructPair e.1 e.2 acc else acc) d).blocks =
        Dict.lookup k d.blocks := by
  induction entries with
  | nil => intro d k _; exact ⟨rfl, rfl⟩
  | cons e rest ih =>
    intro d k hk
    have hkrest : k = parent ∨ k ∉ rest.map Prod.fst := by
      rcases hk with h1 | h2
      · exact Or.inl h1
      · simp only [List.map_cons, List.mem_cons] at h2
        push_neg at h2
        exact Or.inr h2.2
    rw [List.foldl_cons]
    by_cases hp : e.1 ≠ parent
    · rw [if_pos hp]
      have hke : k ≠ e.1 := by
        rcases hk with h1 | h2
        · rw [h1]; exact fun hh => hp hh.symm
        · simp only [List.map_cons, List.mem_cons] at h2
          push_neg at h2
          exact h2.1
      have hpair := setStructPair_lookup_ne e.1 k e.2 d hke
      have := ih (setStructPair e.1 e.2 d) k hkrest
      exact ⟨this.1.trans hpair.2, this.2.trans hpair.1⟩
    · rw [if_neg hp]
      exact ih d k hkrest

theorem structFold_covered (parent : String) (entries : List (String × List String)) :
    ∀ (d : Doc) (k : String), k ≠ parent → k ∈ entries.map Prod.fst →
      ∃ cs, Dict.lookup k (entries.foldl (fun acc e =>
          if e.1 ≠ parent then setStructPair e.1 e.2 acc else acc) d).struct = some cs ∧
        (∀ b, Dict.lookup k (entries.foldl (fun acc e =>
            if e.1 ≠ parent then setStructPair e.1 e.2 acc else acc) d).blocks = some b →
          b.children = cs) := by
  induction entries with
  | nil => intro d k _ hk; simp at hk
  | cons e rest ih =>
    intro d k hkp hk
    rw [List.foldl_cons]
    by_cases hkrest : k ∈ rest.map Prod.fst
    · exact ih _ k hkp hkrest
    · have hke : e.1 = k := by
        simp only [List.map_cons, List.mem_cons] at hk
        rcases hk with h1 | h2
        · exact h1.symm
        · exact absurd h2 hkrest
      subst hke
      rw [if_pos (by simpa using hkp)]
      have hchar := setStructPair_self_char e.1 e.2 d
      have huntouched := structFold_untouched parent rest (setStructPair e.1 e.2 d) e.1
        (Or.inr hkrest)
      refine ⟨e.2, huntouched.1.trans hchar.1, ?_⟩
      intro b hb
      rw [huntouched.2] at hb
      exact hchar.2 b hb

theorem restoreStage1_sync (fuel : Nat) (doc : Doc) (parentId : String)
    (h : syncProp doc) : syncProp (restoreStage1 fuel doc parentId) := by
  rw [restoreStage1]
  exact foldlPreserve syncProp (fun acc c => (removeSubtree fuel acc c).1)
    (fun acc c hacc => removeSubtree_sync fuel acc c hacc)
    (doc.children parentId) doc h

theorem restoreStructFold_untouched (content : DeletedSectionContent) (d : Doc)
    (k : String) (hk : k = content.parent_id ∨ k ∉ content.struct.map Prod.fst) :
    Dict.lookup k (restoreStructFold content d).struct = Dict.lookup k d.struct ∧
    Dict.lookup k (restoreStructFold content d).blocks = Dict.lookup k d.blocks :=
  structFold_untouched content.parent_id content.struct d k hk

theorem restoreStructFold_covered (content : DeletedSectionContent) (d : Doc)
    (k : String) (hk : k ≠ content.parent_id) (hm : k ∈ content.struct.map Prod.fst) :
    ∃ cs, Dict.lookup k (restoreStructFold content d).struct = some cs ∧
      (∀ b, Dict.lookup k (restoreStructFold content d).blocks = some b →
        b.children = cs) :=
  structFold_covered content.parent_id content.struct d k hk hm

theorem restoreBlocksFold_struct (content : DeletedSectionContent) (d : Doc) :
    (restoreBlocksFold content d).1.struct = d.struct :=
  blocksFold_struct content.blocks (d, [])

theorem restoreBlocksFold_not_mem (content : DeletedSectionContent) (d : Doc)
    (k : String) (hk : k ∉ content.blocks.map Prod.fst) :
    Dict.lookup k (restoreBlocksFold content d).1.blocks = Dict.lookup k d.blocks :=
  blocksFold_blocks_not_mem content.blocks (d, []) k hk

theorem restore_sync (fuel : Nat) (doc : Doc) (content : DeletedSectionContent)
    (hs : syncProp doc)
    (hcov : ∀ e ∈ content.blocks, e.1 = content.parent_id ∨
        e.1 ∈ content.struct.map Prod.fst) :
    ∀ ids doc', restore_deleted_section fuel doc content = Except.ok (ids, doc') →
      syncProp doc' := by
  intro ids doc' h
  rw [restore_deleted_section] at h
  by_cases hpres : ¬ Dict.contains content.parent_id doc.blocks
  · rw [if_pos hpres] at h
    exact absurd h (by simp)
  · rw [if_neg hpres] at h
    have hpair : restoreOk fuel doc content = (ids, doc') := by
      cases h
      rfl
    have hdoc : doc' = (restoreOk fuel doc content).2 := by rw [hpair]
    rw [hdoc]
    show syncProp (setStructPair content.parent_id
      (Dict.lookupD content.parent_id content.struct [])
      (restoreStructFold content (restoreBlocksFold content
        (restoreStage2 fuel doc content.parent_id)).1))
    intro k b hb
    by_cases hk : k = content.parent_id
    · subst hk
      exact setStructPair_syncedAt _ _ _ b hb
    · have hfinal := setStructPair_lookup_ne content.parent_id k
        (Dict.lookupD content.parent_id content.struct [])
        (restoreStructFold content (restoreBlocksFold content
          (restoreStage2 fuel doc content.parent_id)).1) hk
      rw [hfinal.1] at hb
      rw [Dict.lookupD, hfinal.2]
      by_cases hkmem : k ∈ content.struct.map Prod.fst
      · rcases restoreStructFold_covered content
          (restoreBlocksFold content (restoreStage2 fuel doc content.parent_id)).1
          k hk hkmem with ⟨cs, hcs, hcsb⟩
        have := hcsb b hb
        rw [hcs, this]
        rfl
      · have huntouched := restoreStructFold_untouched content
          (restoreBlocksFold content (restoreStage2 fuel doc content.parent_id)).1
          k (Or.inr hkmem)
        rw [huntouched.2] at hb
        rw [huntouched.1]
        have hknb : k ∉ content.blocks.map Prod.fst := by
          intro hkb
          rcases List.mem_map.1 hkb with ⟨e, he, hke⟩
          rcases hcov e he with h1 | h2
          · exact hk (hke ▸ h1)
          · exact hkmem (hke ▸ h2)
        have hbf := restoreBlocksFold_not_mem content
          (restoreStage2 fuel doc content.parent_id) k hknb
        rw [hbf] at hb
        rw [restoreBlocksFold_struct]
        have hb1 : Dict.lookup k (restoreStage1 fuel doc content.parent_id).blocks =
            some b := hb
        have hstr2 : Dict.lookup k (restoreStage2 fuel doc content.parent_id).struct =
            Dict.lookup k (restoreStage1 fuel doc content.parent_id).struct := by
          rw [restoreStage2]
          exact Dict.lookup_set_ne _ _ _ _ hk
        rw [hstr2]
        have hsync1 := restoreStage1_sync fuel doc content.parent_id hs
        have := hsync1 k b hb1
        rw [Dict.lookupD] at this
        exact this

/-- C4 counterexample input: a synced single-root document. -/
def c4doc : Doc :=
  { root := "r",
    blocks := [("r", { id := "r", content := "", children := [] })],
    struct := [("r", [])] }

/-- C4 counterexample input: a `DeletedSectionContent` whose block "a" carries
a non-empty child list but has no structure entry (possible because
`restore_deleted_section` accepts any `DeletedSectionContent` value). -/
def c4content : DeletedSectionContent :=
  { parent_id := "r",
    blocks := [("a", { id := "a", content := "x", children := ["zzz"] })],
    struct := [] }

/-- C4 counterexample: the claim quantifies over any single call to
`restore_deleted_section`, but restoring a content value whose block map
contains an id that the content's structure map lacks re-creates that block
with its stale `children` list and never writes its structure entry: starting
from a synced document, the call succeeds and leaves block "a" with
`children = ["zzz"]` while `doc.structure.get("a", [])` is `[]`. -/
theorem C4_counterexample_restore_breaks_sync :
    syncProp c4doc ∧
    (match restore_deleted_section 5 c4doc c4content with
     | Except.ok (_, doc') => ¬ syncProp doc'
     | Except.error _ => False) := by
  constructor
  · intro k b hb
    rw [c4doc] at hb
    rw [Dict.lookup] at hb
    split at hb
    · rename_i hr
      cases hb
      rw [Dict.lookupD, c4doc]
      rw [Dict.lookup]
      simp only [← hr]
      rfl
    · exact absurd hb (by simp [Dict.lookup])
  · show (match restore_deleted_section 5 c4doc c4content with
      | Except.ok (_, doc') => ¬ syncProp doc'
      | Except.error _ => False)
    have hres : restore_deleted_section 5 c4doc c4content =
        Except.ok (["a"], (restoreOk 5 c4doc c4content).2) := by rfl
    rw [hres]
    intro hsync
    have ha : Dict.lookup "a" (restoreOk 5 c4doc c4content).2.blocks =
        some { id := "a", content := "x", children := ["zzz"] } := by rfl
    have := hsync "a" _ ha
    have hlk : Dict.lookupD "a" (restoreOk 5 c4doc c4content).2.struct [] = [] := by rfl
    rw [hlk] at this
    exact absurd this (by simp)

/-- C4 (amended): the denormalization is preserved by `_remove_subtree` and
`_clear_section_children` on every synced document, and by
`restore_deleted_section` provided every id in the content's block map either
is the recorded parent or has an entry in the content's structure map — the
shape `_capture_section_content` always produces.  (Without that proviso the
claim fails: see the counterexample.) -/
theorem C4_structure_children_sync (fuel : Nat) (doc : Doc)
    (id sectionId : String) (content : DeletedSectionContent)
    (hs : syncProp doc)
    (hcov : ∀ e ∈ content.blocks, e.1 = content.parent_id ∨
        e.1 ∈ content.struct.map Prod.fst) :
    syncProp (removeSubtree fuel doc id).1 ∧
    syncProp (clearSectionChildren fuel doc sectionId).1 ∧
    (∀ ids doc', restore_deleted_section fuel doc content = Except.ok (ids, doc') →
      syncProp doc') := by
  exact ⟨removeSubtree_sync fuel doc id hs,
    clearSectionChildren_sync fuel doc sectionId hs,
    restore_sync fuel doc content hs hcov⟩

/-- C4 witness: on a concrete two-block synced document, clearing the section
and then restoring capture-produced content keeps every present block
synced with its structure entry. -/
theorem C4_structure_children_sync_witness :
    syncProp (removeSubtree 3
      { root := "r",
        blocks := [("r", { id := "r", content := "", children := ["a"] }),
                   ("a", { id := "a", content := "x", children := [] })],
        struct := [("r", ["a"]), ("a", [])] } "a").1 ∧
    syncProp (clearSectionChildren 3
      { root := "r",
        blocks := [("r", { id := "r", content := "", children := ["a"] }),
                   ("a", { id := "a", content := "x", children := [] })],
        struct := [("r", ["a"]), ("a", [])] } "r").1 := by
  have hdoc : syncProp
      { root := "r",
        blocks := [("r", { id := "r", content := "", children := ["a"] }),
                   ("a", { id := "a", content := "x", children := [] })],
        struct := [("r", ["a"]), ("a", [])] } := by
    intro k b hb
    rw [Dict.lookup] at hb
    split at hb
    · rename_i hr
      cases hb
      rw [Dict.lookupD, Dict.lookup]
      simp only [← hr]
      rfl
    · rw [Dict.lookup] at hb
      split at hb
      · rename_i ha
        cases hb
        rw [Dict.lookupD, Dict.lookup]
        split
        · rename_i hcontra
          exact absurd (hcontra.trans ha.symm) (by decide)
        · rw [Dict.lookup]
          simp only [← ha]
          rfl
      · exact absurd hb (by simp)
  have h := C4_structure_children_sync 3
    { root := "r",
      blocks := [("r", { id := "r", content := "", children := ["a"] }),
                 ("a", { id := "a", content := "x", children := [] })],
      struct := [("r", ["a"]), ("a", [])] }
    "a" "r" { parent_id := "r" } hdoc (by intro e he; simp at he)
  exact ⟨h.1, h.2.1⟩

/-! ## Claim C3: cascade removal — descendants and well-formedness -/

/-- The descendant relation over the structure index: `Desc doc a x` holds
when `x` lies in the subtree rooted at `a` (including `x = a`). -/
inductive Desc (doc : Doc) : String → String → Prop where
  | refl (a : String) : Desc doc a a
  | step (a c x : String) : c ∈ doc.children a → Desc doc c x → Desc doc a x

/-- Fuel-bounded preorder listing of the subtree rooted at `id` (the
executable counterpart of `Desc`, used for concrete evaluation). -/
def subtreeList : Nat → Doc → String → List String
  | 0, _, _ => []
  | fuel + 1, doc, id => id :: (doc.children id).foldr
      (fun c rest => subtreeList fuel doc c ++ rest) []

/-- The spec's §3 tree invariants for a document, relative to an acyclicity
rank: the structure index has no duplicate keys, agrees with each block's
`children` (the denormalization), only lists existing blocks, gives every id
at most one parent, and strictly decreases the rank from parent to child (so
the tree is acyclic). -/
structure DocWF (doc : Doc) (rank : String → Nat) : Prop where
  keysNodup : (Dict.keys doc.struct).Nodup
  sync : ∀ k b, Dict.lookup k doc.blocks = some b →
    Dict.lookupD k doc.struct [] = b.children
  closed : ∀ p cs c, Dict.lookup p doc.struct = some cs → c ∈ cs →
    (Dict.lookup c doc.blocks).isSome
  parentUnique : ∀ p₁ p₂ cs₁ cs₂ x, Dict.lookup p₁ doc.struct = some cs₁ →
    Dict.lookup p₂ doc.struct = some cs₂ → x ∈ cs₁ → x ∈ cs₂ → p₁ = p₂
  ranked : ∀ p cs c, Dict.lookup p doc.struct = some cs → c ∈ cs → rank c < rank p
  noEmptyKey : Dict.lookup "" doc.struct = none
  covered : ∀ k, (Dict.lookup k doc.blocks).isSome → (Dict.lookup k doc.struct).isSome

theorem children_mem_entry {doc : Doc} {a c : String} (h : c ∈ doc.children a) :
    ∃ cs, Dict.lookup a doc.struct = some cs ∧ c ∈ cs := by
  rw [Doc.children, Dict.lookupD] at h
  rcases hl : Dict.lookup a doc.struct with _ | cs
  · rw [hl] at h; simp at h
  · rw [hl] at h; exact ⟨cs, rfl, h⟩

theorem children_parentUnique {doc : Doc} {rank : String → Nat}
    (hwf : DocWF doc rank) {y₁ y₂ x : String}
    (h₁ : x ∈ doc.children y₁) (h₂ : x ∈ doc.children y₂) : y₁ = y₂ := by
  rcases children_mem_entry h₁ with ⟨cs₁, hl₁, hm₁⟩
  rcases children_mem_entry h₂ with ⟨cs₂, hl₂, hm₂⟩
  exact hwf.parentUnique y₁ y₂ cs₁ cs₂ x hl₁ hl₂ hm₁ hm₂

theorem children_rank_lt {doc : Doc} {rank : String → Nat}
    (hwf : DocWF doc rank) {a c : String} (h : c ∈ doc.children a) :
    rank c < rank a := by
  rcases children_mem_entry h with ⟨cs, hl, hm⟩
  exact hwf.ranked a cs c hl hm

theorem Desc.rank_le {doc : Doc} {rank : String → Nat} (hwf : DocWF doc rank) :
    ∀ {a x : String}, Desc doc a x → rank x ≤ rank a := by
  intro a x h
  induction h with
  | refl => exact le_refl _
  | step a c x hc _ ih => exact le_trans ih (le_of_lt (children_rank_lt hwf hc))

theorem Desc.trans {doc : Doc} : ∀ {a b x : String},
    Desc doc a b → Desc doc b x → Desc doc a x := by
  intro a b x hab hbx
  induction hab with
  | refl => exact hbx
  | step a c y hc _ ih => exact Desc.step a c x hc (ih hbx)

theorem Desc.child {doc : Doc} {a x c : String} (h : Desc doc a x)
    (hc : c ∈ doc.children x) : Desc doc a c :=
  Desc.trans h (Desc.step x c c hc (Desc.refl c))

theorem Desc.exists_parent {doc : Doc} : ∀ {a x : String},
    Desc doc a x → x ≠ a → ∃ y, Desc doc a y ∧ x ∈ doc.children y := by
  intro a x h
  induction h with
  | refl => intro hne; exact absurd rfl hne
  | step a c x hc hcx ih =>
    intro _
    by_cases hxc : x = c
    · subst hxc
      exact ⟨a, Desc.refl a, hc⟩
    · rcases ih hxc with ⟨y, hy, hxy⟩
      exact ⟨y, Desc.step a c y hc hy, hxy⟩

theorem desc_not_sibling_strict {doc : Doc} {rank : String → Nat}
    (hwf : DocWF doc rank) {p : String} {cs : List String}
    (hp : Dict.lookup p doc.struct = some cs) {a b : String}
    (ha : a ∈ cs) (hb : b ∈ cs) (hne : a ≠ b) : ¬ Desc doc a b := by
  intro hdesc
  have hba : b ≠ a := fun h => hne h.symm
  rcases Desc.exists_parent hdesc hba with ⟨y, hy, hby⟩
  rcases children_mem_entry hby with ⟨csy, hly, hmy⟩
  have hyp : y = p := hwf.parentUnique y p csy cs b hly hp hmy hb
  subst hyp
  have h1 : rank y ≤ rank a := Desc.rank_le hwf hy
  have h2 : rank a < rank y := hwf.ranked y cs a hp ha
  omega

theorem Desc.cases_head {doc : Doc} {a x : String} (h : Desc doc a x) :
    x = a ∨ ∃ c, c ∈ doc.children a ∧ Desc doc c x := by
  cases h with
  | refl => exact Or.inl rfl
  | step _ c _ hc hcx => exact Or.inr ⟨c, hc, hcx⟩

theorem descDisjointAux {doc : Doc} {rank : String → Nat} (hwf : DocWF doc rank) :
    ∀ (n : Nat) (a b : String), rank a + rank b ≤ n →
      a ≠ b → ¬ Desc doc a b → ¬ Desc doc b a →
      ∀ x, Desc doc a x → Desc doc b x → False := by
  intro n
  induction n with
  | zero =>
    intro a b hn hne hnab hnba x hax hbx
    rcases Desc.cases_head hax with h1 | ⟨c, hc, _⟩
    · subst h1
      exact hnba hbx
    · have := children_rank_lt hwf hc
      omega
  | succ n ih =>
    intro a b hn hne hnab hnba x hax hbx
    rcases Desc.cases_head hax with h1 | ⟨c, hc, hcx⟩
    · subst h1
      exact hnba hbx
    · rcases Desc.cases_head hbx with h2 | ⟨d, hd, hdx⟩
      · subst h2
        exact hnab (Desc.step a c x hc hcx)
      · by_cases hcd : c = d
        · subst hcd
          exact hne (children_parentUnique hwf hc hd)
        · have hrc := children_rank_lt hwf hc
          have hrd := children_rank_lt hwf hd
          have hncd : ¬ Desc doc c d := by
            intro hcdDesc
            have hdc : d ≠ c := fun h => hcd h.symm
            rcases Desc.exists_parent hcdDesc hdc with ⟨y, hy, hdy⟩
            have hyb : y = b := children_parentUnique hwf hdy hd
            subst hyb
            exact hnab (Desc.step a c y hc hy)
          have hndc : ¬ Desc doc d c := by
            intro hdcDesc
            rcases Desc.exists_parent hdcDesc hcd with ⟨y, hy, hcy⟩
            have hya : y = a := children_parentUnique hwf hcy hc
            subst hya
            exact hnba (Desc.step b d y hd hy)
          exact ih c d (by omega) hcd hncd hndc x hcx hdx

theorem siblingDisjoint {doc : Doc} {rank : String → Nat} (hwf : DocWF doc rank)
    {p : String} {cs : List String} (hp : Dict.lookup p doc.struct = some cs)
    {a b : String} (ha : a ∈ cs) (hb : b ∈ cs) (hne : a ≠ b) :
    ∀ x, Desc doc a x → Desc doc b x → False := by
  have hnab := desc_not_sibling_strict hwf hp ha hb hne
  have hnba := desc_not_sibling_strict hwf hp hb ha (fun h => hne h.symm)
  exact descDisjointAux hwf (rank a + rank b) a b (le_refl _) hne hnab hnba

/-- Drop the removed ids from a block's child list. -/
def filterChildren (r : List String) (b : Block) : Block :=
  { b with children := b.children.filter (fun c => c ∉ r) }

/-- What a (sequence of) subtree removals does to a document: the removed ids
vanish from both maps, every other entry survives with the removed ids
filtered out of its child list. -/
structure RemovedOutcome (d0 d1 : Doc) (r : List String) : Prop where
  blocksGone : ∀ x ∈ r, Dict.lookup x d1.blocks = none
  structGone : ∀ x ∈ r, Dict.lookup x d1.struct = none
  blocksKept : ∀ x, x ∉ r → Dict.lookup x d1.blocks =
    (Dict.lookup x d0.blocks).map (filterChildren r)
  structKept : ∀ x, x ∉ r → Dict.lookup x d1.struct =
    (Dict.lookup x d0.struct).map (fun cs => cs.filter (fun c => c ∉ r))

theorem filterChildren_nil (b : Block) : filterChildren [] b = b := by
  rw [filterChildren]
  have : b.children.filter (fun c => (c ∉ ([] : List String) : Bool)) = b.children := by
    apply List.filter_eq_self.2
    intro a _
    simp
  rw [this]

theorem filter_notMem_append (r₁ r₂ l : List String) :
    l.filter (fun c => (c ∉ r₁ ++ r₂ : Bool)) =
      (l.filter (fun c => (c ∉ r₁ : Bool))).filter (fun c => (c ∉ r₂ : Bool)) := by
  rw [List.filter_filter]
  apply List.filter_congr
  intro a _
  by_cases h1 : a ∈ r₁ <;> by_cases h2 : a ∈ r₂ <;> simp [h1, h2]

theorem filterChildren_append (r₁ r₂ : List String) (b : Block) :
    filterChildren (r₁ ++ r₂) b = filterChildren r₂ (filterChildren r₁ b) := by
  rw [filterChildren, filterChildren, filterChildren]
  simp only
  rw [filter_notMem_append]

theorem RemovedOutcome.nilCase (d : Doc) : RemovedOutcome d d [] := by
  refine ⟨by simp, by simp, ?_, ?_⟩
  · intro x _
    rcases h : Dict.lookup x d.blocks with _ | b
    · rfl
    · rw [Option.map_some']
      rw [filterChildren_nil]
  · intro x _
    rcases h : Dict.lookup x d.struct with _ | cs
    · rfl
    · rw [Option.map_some']
      congr 1
      symm
      apply List.filter_eq_self.2
      intro a _
      simp

theorem RemovedOutcome.comp {d0 d1 d2 : Doc} {r₁ r₂ : List String}
    (h1 : RemovedOutcome d0 d1 r₁) (h2 : RemovedOutcome d1 d2 r₂) :
    RemovedOutcome d0 d2 (r₁ ++ r₂) := by
  refine ⟨?_, ?_, ?_, ?_⟩
  · intro x hx
    rcases List.mem_append.1 hx with hx1 | hx2
    · by_cases hx2 : x ∈ r₂
      · exact h2.blocksGone x hx2
      · rw [h2.blocksKept x hx2, h1.blocksGone x hx1]
        rfl
    · exact h2.blocksGone x hx2
  · intro x hx
    rcases List.mem_append.1 hx with hx1 | hx2
    · by_cases hx2 : x ∈ r₂
      · exact h2.structGone x hx2
      · rw [h2.structKept x hx2, h1.structGone x hx1]
        rfl
    · exact h2.structGone x hx2
  · intro x hx
    rw [List.mem_append] at hx
    push_neg at hx
    rw [h2.blocksKept x hx.2, h1.blocksKept x hx.1]
    rcases Dict.lookup x d0.blocks with _ | b
    · rfl
    · simp only [Option.map_some']
      rw [← filterChildren_append]
  · intro x hx
    rw [List.mem_append] at hx
    push_neg at hx
    rw [h2.structKept x hx.2, h1.structKept x hx.1]
    rcases Dict.lookup x d0.struct with _ | cs
    · rfl
    · simp only [Option.map_some']
      rw [filter_notMem_append]

theorem children_of_removed {d0 d1 : Doc} {r : List String}
    (h : RemovedOutcome d0 d1 r) (y : String) :
    ∀ c ∈ d1.children y, c ∈ d0.children y := by
  intro c hc
  by_cases hy : y ∈ r
  · rw [Doc.children, Dict.lookupD, h.structGone y hy] at hc
    simp at hc
  · rw [Doc.children, Dict.lookupD, h.structKept y hy] at hc
    rw [Doc.children, Dict.lookupD]
    rcases hst : Dict.lookup y d0.struct with _ | cs
    · rw [hst] at hc
      simp at hc
    · rw [hst] at hc
      simp only [Option.map_some', Option.getD_some] at hc ⊢
      exact List.mem_of_mem_filter hc

theorem Desc.mono {dA dB : Doc} (h : ∀ y, ∀ c ∈ dA.children y, c ∈ dB.children y) :
    ∀ {a x : String}, Desc dA a x → Desc dB a x := by
  intro a x hd
  induction hd with
  | refl => exact Desc.refl _
  | step a c x hc _ ih => exact Desc.step a c x (h a c hc) ih

theorem Desc.of_removed {d0 d1 : Doc} {r : List String}
    (h : RemovedOutcome d0 d1 r) {a x : String} (hd : Desc d1 a x) :
    Desc d0 a x :=
  Desc.mono (children_of_removed h) hd

theorem Desc.to_removed {d0 d1 : Doc} {r : List String}
    (h : RemovedOutcome d0 d1 r) {a : String}
    (hreg : ∀ z, Desc d0 a z → z ∉ r) :
    ∀ {x : String}, Desc d0 a x → Desc d1 a x := by
  intro x hd
  induction hd with
  | refl => exact Desc.refl _
  | step a c x hc hcx ih =>
    have ha : a ∉ r := hreg a (Desc.refl a)
    have hcr : c ∉ r := hreg c (Desc.step a c c hc (Desc.refl c))
    have hc1 : c ∈ d1.children a := by
      rw [Doc.children, Dict.lookupD, h.structKept a ha]
      rcases children_mem_entry hc with ⟨cs, hcs, hmc⟩
      rw [hcs]
      simp only [Option.map_some', Option.getD_some]
      rw [List.mem_filter]
      exact ⟨hmc, by simpa using hcr⟩
    exact Desc.step a c x hc1
      (ih (fun z hz => hreg z (Desc.trans (Desc.step a c c hc (Desc.refl c)) hz)))

theorem DocWF.ofRemoved {d0 d1 : Doc} {r : List String} {rank : String → Nat}
    (hwf : DocWF d0 rank) (h : RemovedOutcome d0 d1 r)
    (hkeys : (Dict.keys d1.struct).Nodup) : DocWF d1 rank := by
  refine ⟨hkeys, ?_, ?_, ?_, ?_, ?_, ?_⟩
  · intro k b hb
    by_cases hk : k ∈ r
    · rw [h.blocksGone k hk] at hb
      exact absurd hb (by simp)
    · rw [h.blocksKept k hk] at hb
      rcases hb0 : Dict.lookup k d0.blocks with _ | b0
      · rw [hb0] at hb
        exact absurd hb (by simp)
      · rw [hb0, Option.map_some'] at hb
        cases hb
        have hs0 := hwf.sync k b0 hb0
        rw [Dict.lookupD, h.structKept k hk]
        rw [Dict.lookupD] at hs0
        rcases hst : Dict.lookup k d0.struct with _ | cs
        · rw [hst] at hs0
          simp only [Option.getD_none] at hs0
          rw [filterChildren]
          simp only [Option.map_none, Option.getD_none, ← hs0]
          rfl
        · rw [hst] at hs0
          simp only [Option.getD_some] at hs0
          rw [filterChildren]
          simp only [Option.map_some', Option.getD_some, hs0]
  · intro p cs c hp hc
    by_cases hpr : p ∈ r
    · rw [h.structGone p hpr] at hp
      exact absurd hp (by simp)
    · rw [h.structKept p hpr] at hp
      rcases hst : Dict.lookup p d0.struct with _ | cs0
      · rw [hst] at hp
        exact absurd hp (by simp)
      · rw [hst, Option.map_some'] at hp
        cases hp
        have hcr : c ∉ r := by
          have := List.of_mem_filter hc
          simpa using this
        have hc0 : c ∈ cs0 := List.mem_of_mem_filter hc
        have := hwf.closed p cs0 c hst hc0
        rw [h.blocksKept c hcr]
        rcases hb0 : Dict.lookup c d0.blocks with _ | b0
        · rw [hb0] at this
          simp at this
        · rfl
  · intro p₁ p₂ cs₁ cs₂ x hp₁ hp₂ hx₁ hx₂
    by_cases hpr₁ : p₁ ∈ r
    · rw [h.structGone p₁ hpr₁] at hp₁
      exact absurd hp₁ (by simp)
    · by_cases hpr₂ : p₂ ∈ r
      · rw [h.structGone p₂ hpr₂] at hp₂
        exact absurd hp₂ (by simp)
      · rw [h.structKept p₁ hpr₁] at hp₁
        rw [h.structKept p₂ hpr₂] at hp₂
        rcases hs₁ : Dict.lookup p₁ d0.struct with _ | cs₁0
        · rw [hs₁] at hp₁; exact absurd hp₁ (by simp)
        · rcases hs₂ : Dict.lookup p₂ d0.struct with _ | cs₂0
          · rw [hs₂] at hp₂; exact absurd hp₂ (by simp)
          · rw [hs₁, Option.map_some'] at hp₁
            rw [hs₂, Option.map_some'] at hp₂
            cases hp₁
            cases hp₂
            exact hwf.parentUnique p₁ p₂ cs₁0 cs₂0 x hs₁ hs₂
              (List.mem_of_mem_filter hx₁) (List.mem_of_mem_filter hx₂)
  · intro p cs c hp hc
    by_cases hpr : p ∈ r
    · rw [h.structGone p hpr] at hp
      exact absurd hp (by simp)
    · rw [h.structKept p hpr] at hp
      rcases hst : Dict.lookup p d0.struct with _ | cs0
      · rw [hst] at hp
        exact absurd hp (by simp)
      · rw [hst, Option.map_some'] at hp
        cases hp
        exact hwf.ranked p cs0 c hst (List.mem_of_mem_filter hc)
  · by_cases hr : "" ∈ r
    · exact h.structGone "" hr
    · rw [h.structKept "" hr, hwf.noEmptyKey]
      rfl
  · intro k hk
    by_cases hkr : k ∈ r
    · rw [h.blocksGone k hkr] at hk
      exact absurd hk (by simp)
    · rw [h.blocksKept k hkr] at hk
      rw [h.structKept k hkr]
      rcases hb0 : Dict.lookup k d0.blocks with _ | b0
      · rw [hb0] at hk
        exact absurd hk (by simp)
      · have hcov := hwf.covered k (by rw [hb0]; rfl)
        rcases hs0 : Dict.lookup k d0.struct with _ | cs0
        · rw [hs0] at hcov
          exact absurd hcov (by simp)
        · rfl

theorem Dict.mem_keys_set {α : Type} (k x : String) (v : α) (d : Dict α)
    (h : x ∈ Dict.keys (Dict.set k v d)) : x ∈ Dict.keys d ∨ x = k := by
  induction d with
  | nil =>
    simp only [Dict.set, Dict.keys, List.map_cons, List.map_nil, List.mem_singleton] at h
    exact Or.inr h
  | cons e rest ih =>
    by_cases he : e.1 = k
    · rw [Dict.set, if_pos he] at h
      simp only [Dict.keys, List.map_cons, List.mem_cons] at h
      rcases h with h1 | h2
      · exact Or.inr h1
      · exact Or.inl (by simp [Dict.keys, h2])
    · rw [Dict.set, if_neg he] at h
      simp only [Dict.keys, List.map_cons, List.mem_cons] at h
      rcases h with h1 | h2
      · exact Or.inl (by simp [Dict.keys, h1])
      · rcases ih h2 with h3 | h4
        · exact Or.inl (by simp [Dict.keys] at h3 ⊢; exact Or.inr h3)
        · exact Or.inr h4

theorem Dict.keys_set_nodup {α : Type} (k : String) (v : α) (d : Dict α)
    (h : (Dict.keys d).Nodup) : (Dict.keys (Dict.set k v d)).Nodup := by
  induction d with
  | nil => simp [Dict.set, Dict.keys]
  | cons e rest ih =>
    simp only [Dict.keys, List.map_cons, List.nodup_cons] at h
    by_cases he : e.1 = k
    · rw [Dict.set, if_pos he]
      simp only [Dict.keys, List.map_cons, List.nodup_cons]
      refine ⟨?_, h.2⟩
      rw [← he]
      exact h.1
    · rw [Dict.set, if_neg he]
      simp only [Dict.keys, List.map_cons, List.nodup_cons]
      refine ⟨?_, ih h.2⟩
      intro hcon
      rcases Dict.mem_keys_set k e.1 v rest hcon with h1 | h2
      · exact h.1 h1
      · exact he h2

theorem Dict.keys_erase_nodup {α : Type} (k : String) (d : Dict α)
    (h : (Dict.keys d).Nodup) : (Dict.keys (Dict.erase k d)).Nodup := by
  have hsub : List.Sublist (Dict.erase k d) d := List.filter_sublist d
  exact (hsub.map Prod.fst).nodup h

theorem Dict.lookup_of_mem_nodup {α : Type} {k : String} {v : α} {d : Dict α}
    (hnd : (Dict.keys d).Nodup) (h : (k, v) ∈ d) : Dict.lookup k d = some v := by
  induction d with
  | nil => simp at h
  | cons e rest ih =>
    simp only [Dict.keys, List.map_cons, List.nodup_cons] at hnd
    rcases List.mem_cons.1 h with h1 | h2
    · rw [← h1, Dict.lookup_cons, if_pos rfl]
    · rw [Dict.lookup_cons]
      have hek : e.1 ≠ k := by
        intro hc
        apply hnd.1
        rw [hc]
        exact List.mem_map_of_mem Prod.fst h2
      rw [if_neg hek]
      exact ih hnd.2 h2

theorem parent_some_char {doc : Doc} {rank : String → Nat} (hwf : DocWF doc rank)
    {x p : String} (h : doc.parent x = some p) :
    ∃ cs, Dict.lookup p doc.struct = some cs ∧ x ∈ cs := by
  rw [Doc.parent] at h
  rcases hf : doc.struct.find? (fun e => e.2.contains x) with _ | e
  · rw [hf] at h
    exact absurd h (by simp)
  · rw [hf] at h
    simp only [Option.map_some'] at h
    have hpe := List.find?_some hf
    have hme : e ∈ doc.struct := List.mem_of_find?_eq_some hf
    have hxe : x ∈ e.2 := by simpa using hpe
    have hlk : Dict.lookup e.1 doc.struct = some e.2 := by
      rcases e with ⟨a, cs⟩
      exact Dict.lookup_of_mem_nodup hwf.keysNodup hme
    cases h
    exact ⟨e.2, hlk, hxe⟩

theorem parent_spec {doc : Doc} {rank : String → Nat} (hwf : DocWF doc rank)
    {x p : String} {cs : List String} (hp : Dict.lookup p doc.struct = some cs)
    (hx : x ∈ cs) : doc.parent x = some p := by
  rcases hpar : doc.parent x with _ | q
  · exfalso
    rw [Doc.parent] at hpar
    rcases hf : doc.struct.find? (fun e => e.2.contains x) with _ | e
    · have hmem := Dict.lookup_mem hp
      have := List.find?_eq_none.1 hf (p, cs) hmem
      simp only at this
      exact this (by simpa using hx)
    · rw [hf] at hpar
      exact absurd hpar (by simp)
  · rcases parent_some_char hwf hpar with ⟨cs', hq, hxq⟩
    have := hwf.parentUnique q p cs' cs x hq hp hxq hx
    rw [this]

theorem parent_none_not_child {doc : Doc} {x : String}
    (h : doc.parent x = none) :
    ∀ p cs, Dict.lookup p doc.struct = some cs → x ∉ cs := by
  intro p cs hp hx
  rw [Doc.parent] at h
  rcases hf : doc.struct.find? (fun e => e.2.contains x) with _ | e
  · have hmem := Dict.lookup_mem hp
    have := List.find?_eq_none.1 hf (p, cs) hmem
    simp only at this
    exact this (by simpa using hx)
  · rw [hf] at h
    exact absurd h (by simp)

theorem desc_present {doc : Doc} {rank : String → Nat} (hwf : DocWF doc rank) :
    ∀ {a x : String}, Desc doc a x → (Dict.lookup a doc.blocks).isSome →
      (Dict.lookup x doc.blocks).isSome := by
  intro a x h
  induction h with
  | refl => exact fun h => h
  | step a c x hc _ ih =>
    intro _
    rcases children_mem_entry hc with ⟨cs, hcs, hm⟩
    exact ih (hwf.closed a cs c hcs hm)

theorem children_transport {d0 d1 : Doc} {r : List String}
    (h : RemovedOutcome d0 d1 r) {a b : String} (ha : a ∉ r) (hb : b ∉ r)
    (hmem : b ∈ d0.children a) : b ∈ d1.children a := by
  rcases children_mem_entry hmem with ⟨cs, hcs, hm⟩
  rw [Doc.children, Dict.lookupD, h.structKept a ha, hcs]
  simp only [Option.map_some', Option.getD_some]
  rw [List.mem_filter]
  exact ⟨hm, by simpa using hb⟩

theorem filterChildren_eq_self {r : List String} {b : Block}
    (h : ∀ c ∈ b.children, c ∉ r) : filterChildren r b = b := by
  rw [filterChildren]
  have heq : b.children.filter (fun c => (c ∉ r : Bool)) = b.children :=
    List.filter_eq_self.2 (fun a ha => by simpa using h a ha)
  rw [heq]

theorem filter_eq_self_of_not_mem {r cs : List String}
    (h : ∀ c ∈ cs, c ∉ r) : cs.filter (fun c => (c ∉ r : Bool)) = cs :=
  List.filter_eq_self.2 (fun a ha => by simpa using h a ha)

theorem filter_ne_singleton (b : String) (l : List String) :
    l.filter (fun c => (c ≠ b : Bool)) = l.filter (fun c => (c ∉ [b] : Bool)) := by
  apply List.filter_congr
  intro a _
  simp

theorem setStructPair_self_blocks (k : String) (cs : List String) (doc : Doc) :
    Dict.lookup k (setStructPair k cs doc).blocks =
      (Dict.lookup k doc.blocks).map (fun b => { b with children := cs }) := by
  rw [setStructPair]
  rcases hk : Dict.lookup k { doc with struct := Dict.set k cs doc.struct }.blocks
    with _ | b
  · have h0 : Dict.lookup k doc.blocks = none := hk
    rw [h0]
    exact hk
  · have h0 : Dict.lookup k doc.blocks = some b := hk
    rw [h0]
    show Dict.lookup k (Dict.set k { b with children := cs } doc.blocks) = _
    rw [Dict.lookup_set_self]
    rfl

theorem setStructPair_keys_nodup (k : String) (cs : List String) (doc : Doc)
    (h : (Dict.keys doc.struct).Nodup) :
    (Dict.keys (setStructPair k cs doc).struct).Nodup := by
  rw [setStructPair]
  split
  · exact Dict.keys_set_nodup k cs doc.struct h
  · exact Dict.keys_set_nodup k cs doc.struct h

theorem removeFromParent_keys_nodup (doc : Doc) (blockId : String)
    (h : (Dict.keys doc.struct).Nodup) :
    (Dict.keys (removeFromParent doc blockId).struct).Nodup := by
  rw [removeFromParent]
  split
  · split
    · exact setStructPair_keys_nodup _ _ _ h
    · exact h
  · exact h

theorem eraseBoth_keys_nodup (doc : Doc) (blockId : String)
    (h : (Dict.keys doc.struct).Nodup) :
    (Dict.keys (eraseBoth doc blockId).struct).Nodup :=
  Dict.keys_erase_nodup _ _ h

theorem removeOne_outcome {doc : Doc} {rank : String → Nat} (hwf : DocWF doc rank)
    (blockId : String) :
    RemovedOutcome doc (eraseBoth (removeFromParent doc blockId) blockId)
      [blockId] := by
  rcases hpar : doc.parent blockId with _ | pid
  · have hnc := parent_none_not_child hpar
    have hrfp : removeFromParent doc blockId = doc := by
      rw [removeFromParent, hpar]
    rw [hrfp]
    refine ⟨?_, ?_, ?_, ?_⟩
    · intro x hx
      rw [List.mem_singleton] at hx
      subst hx
      exact Dict.lookup_erase_self _ _
    · intro x hx
      rw [List.mem_singleton] at hx
      subst hx
      exact Dict.lookup_erase_self _ _
    · intro x hx
      rw [List.mem_singleton] at hx
      have h1 : Dict.lookup x (eraseBoth doc blockId).blocks =
          Dict.lookup x doc.blocks := Dict.lookup_erase_ne _ _ _ hx
      rw [h1]
      rcases hb : Dict.lookup x doc.blocks with _ | b
      · rfl
      · rw [Option.map_some']
        congr 1
        symm
        apply filterChildren_eq_self
        intro c hc hcm
        rw [List.mem_singleton] at hcm
        subst hcm
        have hc' : c ∈ doc.children x := by
          rw [Doc.children, hwf.sync x b hb]
          exact hc
        rcases children_mem_entry hc' with ⟨cs, hcs, hm⟩
        exact hnc x cs hcs hm
    · intro x hx
      rw [List.mem_singleton] at hx
      have h1 : Dict.lookup x (eraseBoth doc blockId).struct =
          Dict.lookup x doc.struct := Dict.lookup_erase_ne _ _ _ hx
      rw [h1]
      rcases hs : Dict.lookup x doc.struct with _ | cs
      · rfl
      · rw [Option.map_some']
        congr 1
        symm
        apply filter_eq_self_of_not_mem
        intro c hc hcm
        rw [List.mem_singleton] at hcm
        subst hcm
        exact hnc x cs hs hc
  · rcases parent_some_char hwf hpar with ⟨cs, hcs, hin⟩
    have hpid_ne : pid ≠ "" := by
      intro h0
      rw [h0, hwf.noEmptyKey] at hcs
      exact absurd hcs (by simp)
    have hcont : Dict.contains pid doc.struct := by
      rw [Dict.contains, hcs]
      rfl
    have hlist : (Dict.lookupD pid doc.struct []).filter (· ≠ blockId)
        = cs.filter (fun c => (c ∉ [blockId] : Bool)) := by
      rw [Dict.lookupD, hcs, Option.getD_some, filter_ne_singleton]
    have hrfp : removeFromParent doc blockId =
        setStructPair pid (cs.filter (fun c => (c ∉ [blockId] : Bool))) doc := by
      rw [removeFromParent, hpar]
      show (if pid ≠ "" ∧ Dict.contains pid doc.struct = true then
          let newList := (Dict.lookupD pid doc.struct []).filter (· ≠ blockId)
          setStructPair pid newList doc
        else doc) = _
      rw [if_pos ⟨hpid_ne, hcont⟩]
      show setStructPair pid
        ((Dict.lookupD pid doc.struct []).filter (· ≠ blockId)) doc = _
      rw [hlist]
    have huniq : ∀ x cs', Dict.lookup x doc.struct = some cs' → blockId ∈ cs' →
        x = pid := by
      intro x cs' hx hmem
      have h2 : (some x : Option String) = some pid :=
        (parent_spec hwf hx hmem).symm.trans hpar
      exact Option.some.inj h2
    rw [hrfp]
    refine ⟨?_, ?_, ?_, ?_⟩
    · intro x hx
      rw [List.mem_singleton] at hx
      subst hx
      exact Dict.lookup_erase_self _ _
    · intro x hx
      rw [List.mem_singleton] at hx
      subst hx
      exact Dict.lookup_erase_self _ _
    · intro x hx
      rw [List.mem_singleton] at hx
      have h1 : Dict.lookup x (eraseBoth
            (setStructPair pid (cs.filter (fun c => (c ∉ [blockId] : Bool))) doc)
            blockId).blocks =
          Dict.lookup x (setStructPair pid
            (cs.filter (fun c => (c ∉ [blockId] : Bool))) doc).blocks :=
        Dict.lookup_erase_ne _ _ _ hx
      rw [h1]
      by_cases hxp : x = pid
      · subst hxp
        rw [setStructPair_self_blocks]
        rcases hb : Dict.lookup x doc.blocks with _ | b
        · rfl
        · simp only [Option.map_some']
          congr 1
          have hbc : b.children = cs := by
            have hsy := hwf.sync x b hb
            rw [Dict.lookupD, hcs, Option.getD_some] at hsy
            exact hsy.symm
          rw [filterChildren]
          rw [hbc]
      · rw [(setStructPair_lookup_ne pid x _ doc hxp).1]
        rcases hb : Dict.lookup x doc.blocks with _ | b
        · rfl
        · rw [Option.map_some']
          congr 1
          symm
          apply filterChildren_eq_self
          intro c hc hcm
          rw [List.mem_singleton] at hcm
          subst hcm
          have hsy := hwf.sync x b hb
          rcases hs : Dict.lookup x doc.struct with _ | cs'
          · rw [Dict.lookupD, hs, Option.getD_none] at hsy
            rw [← hsy] at hc
            simp at hc
          · rw [Dict.lookupD, hs, Option.getD_some] at hsy
            rw [← hsy] at hc
            exact hxp (huniq x cs' hs hc)
    · intro x hx
      rw [List.mem_singleton] at hx
      have h1 : Dict.lookup x (eraseBoth
            (setStructPair pid (cs.filter (fun c => (c ∉ [blockId] : Bool))) doc)
            blockId).struct =
          Dict.lookup x (setStructPair pid
            (cs.filter (fun c => (c ∉ [blockId] : Bool))) doc).struct :=
        Dict.lookup_erase_ne _ _ _ hx
      rw [h1]
      by_cases hxp : x = pid
      · subst hxp
        rw [(setStructPair_self_char x _ doc).1, hcs, Option.map_some']
      · rw [(setStructPair_lookup_ne pid x _ doc hxp).2]
        rcases hs : Dict.lookup x doc.struct with _ | cs'
        · rfl
        · rw [Option.map_some']
          congr 1
          symm
          apply filter_eq_self_of_not_mem
          intro c hc hcm
          rw [List.mem_singleton] at hcm
          subst hcm
          exact hxp (huniq x cs' hs hc)

/-- Post-order constraint on a removal list relative to a document: no parent
appears before one of its children. -/
def PostRel (doc : Doc) (a b : String) : Prop := b ∉ doc.children a

/-- Full specification of one `_remove_subtree` call on a well-formed
document: the removed ids vanish from both maps and from every remaining
child list (and nothing else changes beyond that filtering), well-formedness
is preserved, the removed list is duplicate-free, contains exactly the
descendants of the target (when the target exists), lists children before
parents, and ends with the target itself. -/
def RemovalSpec (doc : Doc) (blockId : String) (rank : String → Nat)
    (res : Doc × List String) : Prop :=
  RemovedOutcome doc res.1 res.2 ∧ DocWF res.1 rank ∧ res.2.Nodup ∧
  (∀ x, x ∈ res.2 ↔
    ((Dict.lookup blockId doc.blocks).isSome ∧ Desc doc blockId x)) ∧
  res.2.Pairwise (PostRel doc) ∧
  ((Dict.lookup blockId doc.blocks).isSome → res.2.getLast? = some blockId)

/-- Invariant carried through the child-removal fold of `_remove_subtree`:
after processing the prefix `processed` of the child list, the accumulated
state is a sound removal of exactly the subtrees below `processed`. -/
def FoldInv (doc : Doc) (rank : String → Nat) (processed : List String)
    (st : Doc × List String) : Prop :=
  RemovedOutcome doc st.1 st.2 ∧ DocWF st.1 rank ∧ st.2.Nodup ∧
  (∀ x, x ∈ st.2 ↔ ∃ c ∈ processed, Desc doc c x) ∧
  st.2.Pairwise (PostRel doc)

theorem children_sibling_disjoint {doc : Doc} {rank : String → Nat}
    (hwf : DocWF doc rank) {p a b : String} (ha : a ∈ doc.children p)
    (hb : b ∈ doc.children p) (hne : a ≠ b) {z : String}
    (hza : Desc doc a z) (hzb : Desc doc b z) : False := by
  rcases children_mem_entry ha with ⟨cs, hcs, hma⟩
  rcases children_mem_entry hb with ⟨cs', hcs', hmb⟩
  have he : cs' = cs := Option.some.inj (hcs'.symm.trans hcs)
  subst he
  exact siblingDisjoint hwf hcs hma hmb hne z hza hzb

theorem removeFold_inv {doc : Doc} {rank : String → Nat} (hwf : DocWF doc rank)
    {blockId : String} {fuel : Nat}
    (ih : ∀ d c, DocWF d rank → rank c < fuel →
      RemovalSpec d c rank (removeSubtree fuel d c))
    (hrk : ∀ c ∈ doc.children blockId, rank c < fuel) :
    ∀ cs₂ cs₁ st, doc.children blockId = cs₁ ++ cs₂ →
      FoldInv doc rank cs₁ st →
      FoldInv doc rank (cs₁ ++ cs₂)
        (cs₂.foldl (fun acc c =>
          let r := removeSubtree fuel acc.1 c
          (r.1, acc.2 ++ r.2)) st) := by
  intro cs₂
  induction cs₂ with
  | nil =>
    intro cs₁ st _ hinv
    rw [List.append_nil]
    exact hinv
  | cons c rest ihl =>
    intro cs₁ st hsplit hinv
    rw [List.foldl_cons]
    obtain ⟨hout, hwfc, hnd, hmem, hpw⟩ := hinv
    have hcmem : c ∈ doc.children blockId := by
      rw [hsplit]
      exact List.mem_append.2 (Or.inr (List.mem_cons_self c rest))
    have hsibs : ∀ c' ∈ cs₁, c' ∈ doc.children blockId := by
      intro c' h
      rw [hsplit]
      exact List.mem_append.2 (Or.inl h)
    have hstep : FoldInv doc rank (cs₁ ++ [c])
        ((removeSubtree fuel st.1 c).1, st.2 ++ (removeSubtree fuel st.1 c).2) := by
      by_cases hcov : ∃ c' ∈ cs₁, Desc doc c' c
      · have hcacc : c ∈ st.2 := (hmem c).2 hcov
        have hcgone : Dict.lookup c st.1.blocks = none := hout.blocksGone c hcacc
        have hspec := ih st.1 c hwfc (hrk c hcmem)
        have hr2 : (removeSubtree fuel st.1 c).2 = [] := by
          apply List.eq_nil_iff_forall_not_mem.2
          intro x hx
          have hx2 := (hspec.2.2.2.1 x).1 hx
          rw [hcgone] at hx2
          exact absurd hx2.1 (by simp)
        refine ⟨?_, hspec.2.1, ?_, ?_, ?_⟩
        · have := hout.comp hspec.1
          rw [hr2] at this ⊢
          exact this
        · rw [hr2, List.append_nil]
          exact hnd
        · intro x
          rw [hr2, List.append_nil]
          constructor
          · intro hx
            rcases (hmem x).1 hx with ⟨c', h1, h2⟩
            exact ⟨c', List.mem_append.2 (Or.inl h1), h2⟩
          · rintro ⟨c', hc', hd⟩
            rcases List.mem_append.1 hc' with h1 | h2
            · exact (hmem x).2 ⟨c', h1, hd⟩
            · rw [List.mem_singleton] at h2
              subst h2
              rcases hcov with ⟨c₀, hc₀, hd₀⟩
              exact (hmem x).2 ⟨c₀, hc₀, Desc.trans hd₀ hd⟩
        · rw [hr2, List.append_nil]
          exact hpw
      · have hcnotacc : c ∉ st.2 := fun hx => hcov ((hmem c).1 hx)
        have hreg : ∀ z, Desc doc c z → z ∉ st.2 := by
          intro z hz hzacc
          rcases (hmem z).1 hzacc with ⟨c', hc', hdesc'⟩
          by_cases hcc : c' = c
          · subst hcc
            exact hcov ⟨c', hc', Desc.refl c'⟩
          · exact children_sibling_disjoint hwf (hsibs c' hc') hcmem hcc hdesc' hz
        have hcpres : (Dict.lookup c st.1.blocks).isSome := by
          rw [hout.blocksKept c hcnotacc]
          rcases children_mem_entry hcmem with ⟨cs, hcs, hm⟩
          have hdp := hwf.closed blockId cs c hcs hm
          rcases hbc : Dict.lookup c doc.blocks with _ | b
          · rw [hbc] at hdp
            exact absurd hdp (by simp)
          · rfl
        have hspec := ih st.1 c hwfc (hrk c hcmem)
        obtain ⟨rout, rwf, rnd, rmem, rpw, _⟩ := hspec
        have hdesc_iff : ∀ x, x ∈ (removeSubtree fuel st.1 c).2 ↔ Desc doc c x := by
          intro x
          rw [rmem x]
          constructor
          · rintro ⟨_, hd⟩
            exact Desc.of_removed hout hd
          · intro hd
            exact ⟨hcpres, Desc.to_removed hout hreg hd⟩
        have hdisj : ∀ x ∈ st.2, x ∉ (removeSubtree fuel st.1 c).2 := by
          intro x hx hxr
          have h1 : Dict.lookup x st.1.blocks = none := hout.blocksGone x hx
          have h2 := (rmem x).1 hxr
          have h3 : (Dict.lookup x st.1.blocks).isSome :=
            desc_present hwfc h2.2 h2.1
          rw [h1] at h3
          exact absurd h3 (by simp)
        refine ⟨hout.comp rout, rwf, ?_, ?_, ?_⟩
        · rw [List.nodup_append]
          exact ⟨hnd, rnd, hdisj⟩
        · intro x
          constructor
          · intro hx
            rcases List.mem_append.1 hx with h1 | h2
            · rcases (hmem x).1 h1 with ⟨c', hc', hd⟩
              exact ⟨c', List.mem_append.2 (Or.inl hc'), hd⟩
            · exact ⟨c, List.mem_append.2 (Or.inr (List.mem_singleton.2 rfl)),
                (hdesc_iff x).1 h2⟩
          · rintro ⟨c', hc', hd⟩
            rcases List.mem_append.1 hc' with h1 | h2
            · exact List.mem_append.2 (Or.inl ((hmem x).2 ⟨c', h1, hd⟩))
            · rw [List.mem_singleton] at h2
              subst h2
              exact List.mem_append.2 (Or.inr ((hdesc_iff x).2 hd))
        · rw [List.pairwise_append]
          refine ⟨hpw, ?_, ?_⟩
          · refine List.Pairwise.imp_of_mem ?_ rpw
            intro a b hma hmb hab
            intro hbmem
            apply hab
            exact children_transport hout (fun hx => hdisj a hx hma)
              (fun hx => hdisj b hx hmb) hbmem
          · intro a hma b hmb
            intro hchild
            rcases (hmem a).1 hma with ⟨c', hc', hdesc'⟩
            have hdb : Desc doc c' b :=
              Desc.trans hdesc' (Desc.step a b b hchild (Desc.refl b))
            have hdcb : Desc doc c b := (hdesc_iff b).1 hmb
            by_cases hcc : c' = c
            · subst hcc
              exact hcov ⟨c', hc', Desc.refl c'⟩
            · exact children_sibling_disjoint hwf (hsibs c' hc') hcmem hcc hdb hdcb
    have hsplit' : doc.children blockId = (cs₁ ++ [c]) ++ rest := by
      rw [hsplit, List.append_assoc, List.singleton_append]
    have hconc := ihl (cs₁ ++ [c]) _ hsplit' hstep
    rw [List.append_assoc, List.singleton_append] at hconc
    exact hconc

theorem removeSubtree_main {rank : String → Nat} :
    ∀ (fuel : Nat) (doc : Doc) (blockId : String), DocWF doc rank →
      rank blockId < fuel →
      RemovalSpec doc blockId rank (removeSubtree fuel doc blockId) := by
  intro fuel
  induction fuel with
  | zero =>
    intro doc blockId _ hr
    omega
  | succ fuel ih =>
    intro doc blockId hwf hr
    rcases hb : Dict.lookup blockId doc.blocks with _ | block
    · have hres : removeSubtree (fuel + 1) doc blockId = (doc, []) := by
        rw [removeSubtree, hb]
      rw [hres]
      refine ⟨RemovedOutcome.nilCase doc, hwf, List.nodup_nil, ?_, List.Pairwise.nil, ?_⟩
      · intro x
        constructor
        · intro hx
          exact absurd hx (by simp)
        · rintro ⟨hs, _⟩
          rw [hb] at hs
          exact absurd hs (by simp)
      · intro hs
        rw [hb] at hs
        exact absurd hs (by simp)
    · have hchildren : block.children = doc.children blockId := by
        have := hwf.sync blockId block hb
        rw [Doc.children]
        exact this.symm
      have hrk : ∀ c ∈ doc.children blockId, rank c < fuel := by
        intro c hc
        rcases children_mem_entry hc with ⟨cs, hcs, hm⟩
        have := hwf.ranked blockId cs c hcs hm
        omega
      have hinit : FoldInv doc rank [] (doc, ([] : List String)) :=
        ⟨RemovedOutcome.nilCase doc, hwf, List.nodup_nil, by simp, List.Pairwise.nil⟩
      have hfold := removeFold_inv hwf (fun d c h1 h2 => ih d c h1 h2) hrk
        (doc.children blockId) [] (doc, ([] : List String)) (by simp) hinit
      rw [List.nil_append] at hfold
      obtain ⟨fout, fwf, fnd, fmem, fpw⟩ := hfold
      have hbid_rank : ∀ x ∈ ((doc.children blockId).foldl (fun acc c =>
          let r := removeSubtree fuel acc.1 c
          (r.1, acc.2 ++ r.2)) (doc, ([] : List String))).2,
          rank x < rank blockId := by
        intro x hx
        rcases (fmem x).1 hx with ⟨c, hc, hd⟩
        have h1 := Desc.rank_le hwf hd
        rcases children_mem_entry hc with ⟨cs, hcs, hm⟩
        have h2 := hwf.ranked blockId cs c hcs hm
        omega
      have hbid_notin : blockId ∉ ((doc.children blockId).foldl (fun acc c =>
          let r := removeSubtree fuel acc.1 c
          (r.1, acc.2 ++ r.2)) (doc, ([] : List String))).2 := by
        intro hx
        have := hbid_rank blockId hx
        omega
      have hres : removeSubtree (fuel + 1) doc blockId =
          (eraseBoth (removeFromParent ((doc.children blockId).foldl (fun acc c =>
              let r := removeSubtree fuel acc.1 c
              (r.1, acc.2 ++ r.2)) (doc, ([] : List String))).1 blockId) blockId,
            ((doc.children blockId).foldl (fun acc c =>
              let r := removeSubtree fuel acc.1 c
              (r.1, acc.2 ++ r.2)) (doc, ([] : List String))).2 ++ [blockId]) := by
        simp only [removeSubtree, hb]
        rw [hchildren]
      rw [hres]
      have hout1 := fout.comp (removeOne_outcome fwf blockId)
      refine ⟨hout1, ?_, ?_, ?_, ?_, ?_⟩
      · apply DocWF.ofRemoved hwf hout1
        apply eraseBoth_keys_nodup
        apply removeFromParent_keys_nodup
        exact fwf.keysNodup
      · rw [List.nodup_append]
        refine ⟨fnd, List.nodup_singleton _, ?_⟩
        intro x hx hxs
        rw [List.mem_singleton] at hxs
        subst hxs
        exact hbid_notin hx
      · intro x
        constructor
        · intro hx
          rcases List.mem_append.1 hx with h1 | h2
          · rcases (fmem x).1 h1 with ⟨c, hc, hd⟩
            exact ⟨by rw [hb]; rfl, Desc.step blockId c x hc hd⟩
          · rw [List.mem_singleton] at h2
            subst h2
            exact ⟨by rw [hb]; rfl, Desc.refl _⟩
        · rintro ⟨_, hd⟩
          rcases Desc.cases_head hd with h1 | ⟨c, hc, hd'⟩
          · subst h1
            exact List.mem_append.2 (Or.inr (List.mem_singleton.2 rfl))
          · exact List.mem_append.2 (Or.inl ((fmem x).2 ⟨c, hc, hd'⟩))
      · rw [List.pairwise_append]
        refine ⟨fpw, List.pairwise_singleton _ _, ?_⟩
        intro a ha b hbm
        rw [List.mem_singleton] at hbm
        subst hbm
        intro hchild
        rcases children_mem_entry hchild with ⟨cs, hcs, hm⟩
        have h1 := hwf.ranked a cs b hcs hm
        have h2 := hbid_rank a ha
        omega
      · intro _
        exact List.getLast?_concat _

/-- Executable check of the spec §3 tree invariants (`DocWF`) for a concrete
document and rank function: duplicate-free structure keys, no empty-string
key, block/structure denormalization in sync, structure closed over existing
blocks with an entry for every block, at most one parent per id, and the rank
strictly decreasing from parent to child. -/
def wfCheck (doc : Doc) (rank : String → Nat) : Bool :=
  decide (Dict.keys doc.struct).Nodup &&
  decide (Dict.lookup "" doc.struct = none) &&
  doc.blocks.all (fun e => decide (Dict.lookupD e.1 doc.struct [] = e.2.children)) &&
  doc.blocks.all (fun e => (Dict.lookup e.1 doc.struct).isSome) &&
  doc.struct.all (fun e => e.2.all (fun c => (Dict.lookup c doc.blocks).isSome)) &&
  doc.struct.all (fun e1 => doc.struct.all (fun e2 =>
    e1.2.all (fun x => !(e2.2.contains x) || decide (e1.1 = e2.1)))) &&
  doc.struct.all (fun e => e.2.all (fun c => decide (rank c < rank e.1)))

theorem wfCheck_sound {doc : Doc} {rank : String → Nat}
    (h : wfCheck doc rank = true) : DocWF doc rank := by
  rw [wfCheck] at h
  simp only [Bool.and_eq_true] at h
  obtain ⟨⟨⟨⟨⟨⟨h1, h2⟩, h3⟩, h4⟩, h5⟩, h6⟩, h7⟩ := h
  refine ⟨of_decide_eq_true h1, ?_, ?_, ?_, ?_, of_decide_eq_true h2, ?_⟩
  · intro k b hkb
    have hm := Dict.lookup_mem hkb
    have := List.all_eq_true.1 h3 (k, b) hm
    exact of_decide_eq_true this
  · intro p cs c hp hc
    have hm := Dict.lookup_mem hp
    have := List.all_eq_true.1 (List.all_eq_true.1 h5 (p, cs) hm) c hc
    exact this
  · intro p₁ p₂ cs₁ cs₂ x hp₁ hp₂ hx₁ hx₂
    have hm₁ := Dict.lookup_mem hp₁
    have hm₂ := Dict.lookup_mem hp₂
    have hall := List.all_eq_true.1
      (List.all_eq_true.1 (List.all_eq_true.1 h6 (p₁, cs₁) hm₁) (p₂, cs₂) hm₂) x hx₁
    rw [Bool.or_eq_true] at hall
    rcases hall with hcase | hcase
    · exfalso
      have hcon : cs₂.contains x = true := by simpa using hx₂
      rw [hcon] at hcase
      exact absurd hcase (by simp)
    · exact of_decide_eq_true hcase
  · intro p cs c hp hc
    have hm := Dict.lookup_mem hp
    have := List.all_eq_true.1 (List.all_eq_true.1 h7 (p, cs) hm) c hc
    exact of_decide_eq_true this
  · intro k hk
    rcases hb : Dict.lookup k doc.blocks with _ | b
    · rw [hb] at hk
      exact absurd hk (by simp)
    · have hm := Dict.lookup_mem hb
      exact List.all_eq_true.1 h4 (k, b) hm

/-- C3: on a document satisfying the spec §3 tree invariants (witnessed by an
acyclicity rank) with `block_id` present and recursion fuel above its rank,
`_remove_subtree(doc, block_id)` removes exactly `block_id` and all of its
transitive descendants: the returned list contains precisely the descendants
(`Desc`), each exactly once, in post-order (no parent before one of its
children, `block_id` last); afterwards none of the removed ids is present in
`doc.blocks` or `doc.structure`, no remaining block's child list or structure
entry mentions a removed id, and every block outside the subtree is still
present, changed only by filtering removed ids out of its child list. -/
theorem C3_remove_subtree_exact (doc : Doc) (rank : String → Nat)
    (blockId : String) (fuel : Nat) (hwf : DocWF doc rank)
    (hpres : (Dict.lookup blockId doc.blocks).isSome)
    (hfuel : rank blockId < fuel) :
    (∀ x, x ∈ (removeSubtree fuel doc blockId).2 ↔ Desc doc blockId x) ∧
    (removeSubtree fuel doc blockId).2.Nodup ∧
    (removeSubtree fuel doc blockId).2.Pairwise (PostRel doc) ∧
    (removeSubtree fuel doc blockId).2.getLast? = some blockId ∧
    (∀ x ∈ (removeSubtree fuel doc blockId).2,
      Dict.lookup x (removeSubtree fuel doc blockId).1.blocks = none ∧
      Dict.lookup x (removeSubtree fuel doc blockId).1.struct = none) ∧
    (∀ x, x ∉ (removeSubtree fuel doc blockId).2 →
      Dict.lookup x (removeSubtree fuel doc blockId).1.blocks =
        (Dict.lookup x doc.blocks).map
          (filterChildren (removeSubtree fuel doc blockId).2) ∧
      Dict.lookup x (removeSubtree fuel doc blockId).1.struct =
        (Dict.lookup x doc.struct).map
          (fun cs => cs.filter
            (fun c => (c ∉ (removeSubtree fuel doc blockId).2 : Bool)))) ∧
    (∀ x b, Dict.lookup x (removeSubtree fuel doc blockId).1.blocks = some b →
      ∀ c ∈ b.children, c ∉ (removeSubtree fuel doc blockId).2) := by
  obtain ⟨hout, _, hnd, hmem, hpw, hlast⟩ :=
    removeSubtree_main fuel doc blockId hwf hfuel
  refine ⟨?_, hnd, hpw, hlast hpres, ?_, ?_, ?_⟩
  · intro x
    rw [hmem x]
    exact ⟨fun h => h.2, fun h => ⟨hpres, h⟩⟩
  · intro x hx
    exact ⟨hout.blocksGone x hx, hout.structGone x hx⟩
  · intro x hx
    exact ⟨hout.blocksKept x hx, hout.structKept x hx⟩
  · intro x b hxb c hc hcr
    have hxnot : x ∉ (removeSubtree fuel doc blockId).2 := by
      intro hx
      rw [hout.blocksGone x hx] at hxb
      exact absurd hxb (by simp)
    rw [hout.blocksKept x hxnot] at hxb
    rcases hb0 : Dict.lookup x doc.blocks with _ | b0
    · rw [hb0] at hxb
      exact absurd hxb (by simp)
    · rw [hb0, Option.map_some'] at hxb
      cases Option.some.inj hxb
      have hc' : c ∈ b0.children.filter
          (fun c => (c ∉ (removeSubtree fuel doc blockId).2 : Bool)) := hc
      have := List.of_mem_filter hc'
      exact absurd hcr (by simpa using this)

/-- Concrete document exercising cascade removal: root `"r"` above section
`"a"`, which has the two leaf children `"b"` and `"c"`. -/
def c3doc : Doc :=
  { root := "r",
    blocks := [("r", { id := "r", content := "", children := ["a"] }),
               ("a", { id := "a", content := "A", children := ["b", "c"] }),
               ("b", { id := "b", content := "B" }),
               ("c", { id := "c", content := "C" })],
    struct := [("r", ["a"]), ("a", ["b", "c"]), ("b", []), ("c", [])] }

/-- Acyclicity rank for `c3doc`: strictly decreasing from parent to child. -/
def c3rank (s : String) : Nat :=
  if s = "r" then 3 else if s = "a" then 2 else if s = "b" then 1 else
    if s = "c" then 1 else 0

theorem C3_remove_subtree_exact_witness :
    (removeSubtree 3 c3doc "a").2.Nodup ∧
    (removeSubtree 3 c3doc "a").2.getLast? = some "a" ∧
    "b" ∈ (removeSubtree 3 c3doc "a").2 ∧
    Dict.lookup "b" (removeSubtree 3 c3doc "a").1.blocks = none ∧
    Dict.lookup "a" (removeSubtree 3 c3doc "a").1.struct = none := by
  have h := C3_remove_subtree_exact c3doc c3rank "a" 3
    (wfCheck_sound (by decide)) (by decide) (by decide)
  have hb : "b" ∈ (removeSubtree 3 c3doc "a").2 :=
    (h.1 "b").2 (Desc.step "a" "b" "b" (by decide) (Desc.refl "b"))
  have ha : "a" ∈ (removeSubtree 3 c3doc "a").2 :=
    (h.1 "a").2 (Desc.refl "a")
  exact ⟨h.2.1, h.2.2.2.1, hb, (h.2.2.2.2.1 "b" hb).1, (h.2.2.2.2.1 "a" ha).2⟩

theorem Dict.not_mem_keys_of_lookup_none {α : Type} {k : String} {d : Dict α}
    (h : Dict.lookup k d = none) : k ∉ Dict.keys d := by
  intro hk
  rcases List.mem_map.1 hk with ⟨⟨a, b⟩, he, hke⟩
  have hk2 : a = k := hke
  subst hk2
  have h2 := Dict.lookup_isSome_of_mem he
  rw [h] at h2
  exact absurd h2 (by simp)

theorem blocksFold_exact (entries : List (String × Block)) :
    ∀ (acc : Doc × List String) (k : String) (b : Block),
      (Dict.keys (entries : Dict Block)).Nodup → (k, b) ∈ entries →
      Dict.lookup k ((entries.foldl (fun acc e =>
          ({ acc.1 with blocks := Dict.set e.1 e.2 acc.1.blocks }, acc.2 ++ [e.1]))
        acc).1).blocks = some b := by
  induction entries with
  | nil =>
    intro acc k b _ hm
    simp at hm
  | cons e rest ih =>
    intro acc k b hnd hm
    simp only [Dict.keys, List.map_cons, List.nodup_cons] at hnd
    rw [List.foldl_cons]
    rcases List.mem_cons.1 hm with h1 | h2
    · cases h1
      rw [blocksFold_blocks_not_mem rest _ k hnd.1]
      exact Dict.lookup_set_self _ _ _
    · exact ih _ k b hnd.2 h2

theorem structFold_exact_val (parent : String)
    (entries : List (String × List String)) :
    ∀ (d : Doc) (k : String) (v : List String),
      (Dict.keys (entries : Dict (List String))).Nodup → (k, v) ∈ entries →
      k ≠ parent →
      Dict.lookup k (entries.foldl (fun acc e =>
          if e.1 ≠ parent then setStructPair e.1 e.2 acc else acc) d).struct =
        some v ∧
      Dict.lookup k (entries.foldl (fun acc e =>
          if e.1 ≠ parent then setStructPair e.1 e.2 acc else acc) d).blocks =
        (Dict.lookup k d.blocks).map (fun b => { b with children := v }) := by
  induction entries with
  | nil =>
    intro d k v _ hm _
    simp at hm
  | cons e rest ih =>
    intro d k v hnd hm hkp
    simp only [Dict.keys, List.map_cons, List.nodup_cons] at hnd
    rw [List.foldl_cons]
    rcases List.mem_cons.1 hm with h1 | h2
    · cases h1
      rw [if_pos (by simpa using hkp)]
      have hunt := structFold_untouched parent rest (setStructPair k v d) k
        (Or.inr hnd.1)
      constructor
      · rw [hunt.1]
        exact (setStructPair_self_char _ _ _).1
      · rw [hunt.2]
        exact setStructPair_self_blocks _ _ _
    · have hke : e.1 ≠ k := fun hh =>
        hnd.1 (hh ▸ List.mem_map_of_mem Prod.fst h2)
      by_cases hep : e.1 ≠ parent
      · rw [if_pos hep]
        have hih := ih (setStructPair e.1 e.2 d) k v hnd.2 h2 hkp
        refine ⟨hih.1, ?_⟩
        rw [hih.2, (setStructPair_lookup_ne e.1 k e.2 d (fun hh => hke hh.symm)).1]
      · rw [if_neg hep]
        exact ih d k v hnd.2 h2 hkp

theorem captureLoop_char (doc : Doc) : ∀ (fuel : Nat) (queue : List String)
    (content out : DeletedSectionContent),
    captureLoop fuel doc content queue = some out →
    (∀ x, (Dict.lookup x content.blocks).isSome →
      Dict.lookup x content.blocks = Dict.lookup x doc.blocks) →
    (∀ x, (Dict.lookup x content.struct).isSome →
      Dict.lookup x content.struct = some (doc.children x)) →
    out.parent_id = content.parent_id ∧
    ((Dict.keys content.blocks).Nodup → (Dict.keys out.blocks).Nodup) ∧
    ((Dict.keys content.struct).Nodup → (Dict.keys out.struct).Nodup) ∧
    (∀ x, ((∃ q ∈ queue, Desc doc q x) ∨ (Dict.lookup x content.blocks).isSome) →
      Dict.lookup x out.blocks = Dict.lookup x doc.blocks) ∧
    (∀ x, ¬(∃ q ∈ queue, Desc doc q x) →
      Dict.lookup x out.blocks = Dict.lookup x content.blocks) ∧
    (∀ x, (∃ q ∈ queue, Desc doc q x) →
      Dict.lookup x out.struct = some (doc.children x)) ∧
    (∀ x, ¬(∃ q ∈ queue, Desc doc q x) →
      Dict.lookup x out.struct = Dict.lookup x content.struct) := by
  intro fuel
  induction fuel with
  | zero =>
    intro queue content out h hagree hsagree
    cases queue with
    | nil =>
      have hoc : content = out := by
        rw [captureLoop] at h
        exact Option.some.inj h
      subst hoc
      refine ⟨rfl, fun h => h, fun h => h, ?_, fun _ _ => rfl, ?_, fun _ _ => rfl⟩
      · intro x hx
        rcases hx with ⟨q, hq, _⟩ | hx
        · exact absurd hq (by simp)
        · exact hagree x hx
      · rintro x ⟨q, hq, _⟩
        exact absurd hq (by simp)
    | cons current queue =>
      rw [captureLoop] at h
      exact absurd h (by simp)
  | succ fuel ih =>
    intro queue content out h hagree hsagree
    cases queue with
    | nil =>
      have hoc : content = out := by
        rw [captureLoop] at h
        exact Option.some.inj h
      subst hoc
      refine ⟨rfl, fun h => h, fun h => h, ?_, fun _ _ => rfl, ?_, fun _ _ => rfl⟩
      · intro x hx
        rcases hx with ⟨q, hq, _⟩ | hx
        · exact absurd hq (by simp)
        · exact hagree x hx
      · rintro x ⟨q, hq, _⟩
        exact absurd hq (by simp)
    | cons current queue =>
      rw [captureLoop] at h
      have hre : ∀ x, (∃ q ∈ current :: queue, Desc doc q x) ↔
          ((∃ q ∈ queue ++ doc.children current, Desc doc q x) ∨ x = current) := by
        intro x
        constructor
        · rintro ⟨q, hq, hd⟩
          rcases List.mem_cons.1 hq with h1 | h2
          · subst h1
            rcases Desc.cases_head hd with he | ⟨c, hc, hd'⟩
            · exact Or.inr he
            · exact Or.inl ⟨c, List.mem_append.2 (Or.inr hc), hd'⟩
          · exact Or.inl ⟨q, List.mem_append.2 (Or.inl h2), hd⟩
        · rintro (⟨q, hq, hd⟩ | he)
          · rcases List.mem_append.1 hq with h1 | h2
            · exact ⟨q, List.mem_cons_of_mem _ h1, hd⟩
            · exact ⟨current, List.mem_cons_self _ _, Desc.step current q x h2 hd⟩
          · subst he
            exact ⟨x, List.mem_cons_self _ _, Desc.refl x⟩
      rcases hcb : Dict.lookup current doc.blocks with _ | cb
      · rw [hcb] at h
        have h' : captureLoop fuel doc
            { content with
              struct := Dict.set current (doc.children current) content.struct }
            (queue ++ doc.children current) = some out := h
        have hsag2 : ∀ x, (Dict.lookup x (Dict.set current (doc.children current)
            content.struct)).isSome →
            Dict.lookup x (Dict.set current (doc.children current) content.struct) =
              some (doc.children x) := by
          intro x hx
          by_cases hxc : x = current
          · subst hxc
            rw [Dict.lookup_set_self]
          · rw [Dict.lookup_set_ne _ _ _ _ hxc] at hx ⊢
            exact hsagree x hx
        obtain ⟨hp, hnb, hns, hB1, hB2, hS1, hS2⟩ :=
          ih (queue ++ doc.children current) _ out h' hagree hsag2
        refine ⟨hp, hnb, ?_, ?_, ?_, ?_, ?_⟩
        · intro hnod
          exact hns (Dict.keys_set_nodup _ _ _ hnod)
        · intro x hx
          rcases hx with hr | hx
          · rcases (hre x).1 hr with hr' | he
            · exact hB1 x (Or.inl hr')
            · subst he
              by_cases hr' : ∃ q ∈ queue ++ doc.children x, Desc doc q x
              · exact hB1 x (Or.inl hr')
              · rw [hB2 x hr', hcb]
                by_cases hx : (Dict.lookup x content.blocks).isSome
                · rw [hagree x hx, hcb]
                · rcases hlk : Dict.lookup x content.blocks with _ | v
                  · rfl
                  · rw [hlk] at hx
                    exact absurd rfl hx
          · exact hB1 x (Or.inr hx)
        · intro x hnr
          have hxc : x ≠ current := by
            intro he
            exact hnr ⟨current, List.mem_cons_self _ _, he ▸ Desc.refl x⟩
          have hnr' : ¬∃ q ∈ queue ++ doc.children current, Desc doc q x :=
            fun hr' => hnr ((hre x).2 (Or.inl hr'))
          exact hB2 x hnr'
        · intro x hr
          rcases (hre x).1 hr with hr' | he
          · exact hS1 x hr'
          · subst he
            by_cases hr' : ∃ q ∈ queue ++ doc.children x, Desc doc q x
            · exact hS1 x hr'
            · rw [hS2 x hr']
              exact Dict.lookup_set_self _ _ _
        · intro x hnr
          have hxc : x ≠ current := by
            intro he
            exact hnr ⟨current, List.mem_cons_self _ _, he ▸ Desc.refl x⟩
          have hnr' : ¬∃ q ∈ queue ++ doc.children current, Desc doc q x :=
            fun hr' => hnr ((hre x).2 (Or.inl hr'))
          rw [hS2 x hnr']
          exact Dict.lookup_set_ne _ _ _ _ hxc
      · rw [hcb] at h
        have h' : captureLoop fuel doc
            { content with
              blocks := Dict.set current cb content.blocks,
              struct := Dict.set current (doc.children current) content.struct }
            (queue ++ doc.children current) = some out := h
        have hag2 : ∀ x, (Dict.lookup x (Dict.set current cb content.blocks)).isSome →
            Dict.lookup x (Dict.set current cb content.blocks) =
              Dict.lookup x doc.blocks := by
          intro x hx
          by_cases hxc : x = current
          · subst hxc
            rw [Dict.lookup_set_self, hcb]
          · rw [Dict.lookup_set_ne _ _ _ _ hxc] at hx ⊢
            exact hagree x hx
        have hsag2 : ∀ x, (Dict.lookup x (Dict.set current (doc.children current)
            content.struct)).isSome →
            Dict.lookup x (Dict.set current (doc.children current) content.struct) =
              some (doc.children x) := by
          intro x hx
          by_cases hxc : x = current
          · subst hxc
            rw [Dict.lookup_set_self]
          · rw [Dict.lookup_set_ne _ _ _ _ hxc] at hx ⊢
            exact hsagree x hx
        obtain ⟨hp, hnb, hns, hB1, hB2, hS1, hS2⟩ :=
          ih (queue ++ doc.children current) _ out h' hag2 hsag2
        refine ⟨hp, ?_, ?_, ?_, ?_, ?_, ?_⟩
        · intro hnod
          exact hnb (Dict.keys_set_nodup _ _ _ hnod)
        · intro hnod
          exact hns (Dict.keys_set_nodup _ _ _ hnod)
        · intro x hx
          rcases hx with hr | hx
          · rcases (hre x).1 hr with hr' | he
            · exact hB1 x (Or.inl hr')
            · subst he
              apply hB1 x
              right
              rw [Dict.lookup_set_self]
              rfl
          · apply hB1 x
            right
            by_cases hxc : x = current
            · subst hxc
              rw [Dict.lookup_set_self]
              rfl
            · rw [Dict.lookup_set_ne _ _ _ _ hxc]
              exact hx
        · intro x hnr
          have hxc : x ≠ current := by
            intro he
            exact hnr ⟨current, List.mem_cons_self _ _, he ▸ Desc.refl x⟩
          have hnr' : ¬∃ q ∈ queue ++ doc.children current, Desc doc q x :=
            fun hr' => hnr ((hre x).2 (Or.inl hr'))
          rw [hB2 x hnr']
          exact Dict.lookup_set_ne _ _ _ _ hxc
        · intro x hr
          rcases (hre x).1 hr with hr' | he
          · exact hS1 x hr'
          · subst he
            by_cases hr' : ∃ q ∈ queue ++ doc.children x, Desc doc q x
            · exact hS1 x hr'
            · rw [hS2 x hr']
              exact Dict.lookup_set_self _ _ _
        · intro x hnr
          have hxc : x ≠ current := by
            intro he
            exact hnr ⟨current, List.mem_cons_self _ _, he ▸ Desc.refl x⟩
          have hnr' : ¬∃ q ∈ queue ++ doc.children current, Desc doc q x :=
            fun hr' => hnr ((hre x).2 (Or.inl hr'))
          rw [hS2 x hnr']
          exact Dict.lookup_set_ne _ _ _ _ hxc

/-- The child-subtree fold of `_clear_section_children`. -/
def clearFold (fuel : Nat) (doc : Doc) (sectionId : String) : Doc × List String :=
  (doc.children sectionId).foldl
    (fun acc c =>
      let r := removeSubtree fuel acc.1 c
      (r.1, acc.2 ++ r.2))
    (doc, ([] : List String))

theorem clearSectionChildren_char (doc : Doc) (rank : String → Nat)
    (sectionId : String) (fclear : Nat) (hwf : DocWF doc rank)
    (hfuel : rank sectionId < fclear) (bS : Block)
    (hb : Dict.lookup sectionId doc.blocks = some bS) :
    (∀ x, x ∈ (clearSectionChildren fclear doc sectionId).2 ↔
      ∃ c ∈ doc.children sectionId, Desc doc c x) ∧
    Dict.lookup sectionId (clearSectionChildren fclear doc sectionId).1.struct =
      some [] ∧
    Dict.lookup sectionId (clearSectionChildren fclear doc sectionId).1.blocks =
      some { bS with children := [] } := by
  have hrk : ∀ c ∈ doc.children sectionId, rank c < fclear := by
    intro c hc
    rcases children_mem_entry hc with ⟨cs, hcs, hm⟩
    have := hwf.ranked sectionId cs c hcs hm
    omega
  have hinit : FoldInv doc rank [] (doc, ([] : List String)) :=
    ⟨RemovedOutcome.nilCase doc, hwf, List.nodup_nil, by simp, List.Pairwise.nil⟩
  have hfold := removeFold_inv hwf
    (fun d c h1 h2 => removeSubtree_main fclear d c h1 h2) hrk
    (doc.children sectionId) [] (doc, ([] : List String)) (by simp) hinit
  rw [List.nil_append] at hfold
  have hfold' : FoldInv doc rank (doc.children sectionId)
      (clearFold fclear doc sectionId) := hfold
  obtain ⟨fout, _, _, fmem, _⟩ := hfold'
  have hSnot : sectionId ∉ (clearFold fclear doc sectionId).2 := by
    intro hx
    rcases (fmem sectionId).1 hx with ⟨c, hc, hd⟩
    have h1 := Desc.rank_le hwf hd
    have h2 := hrk c hc
    have h3 : rank c < rank sectionId := by
      rcases children_mem_entry hc with ⟨cs, hcs, hm⟩
      exact hwf.ranked sectionId cs c hcs hm
    omega
  have hcl : clearSectionChildren fclear doc sectionId =
      (setStructPair sectionId [] (clearFold fclear doc sectionId).1,
        (clearFold fclear doc sectionId).2) := rfl
  refine ⟨?_, ?_, ?_⟩
  · intro x
    rw [hcl]
    exact fmem x
  · rw [hcl]
    exact (setStructPair_self_char sectionId [] _).1
  · rw [hcl]
    have h1 := setStructPair_self_blocks sectionId []
      (clearFold fclear doc sectionId).1
    rw [h1, fout.blocksKept sectionId hSnot, hb]
    rfl

/-- The initial captured content of `_capture_section_content`: the parent id
and the parent's child list, before the BFS loop runs. -/
def captureInit (doc : Doc) (sectionId : String) : DeletedSectionContent :=
  { parent_id := sectionId,
    struct := Dict.set sectionId (doc.children sectionId) [] }

/-- C2: clearing a section with undo and then restoring the captured content
is the identity on the section's subtree.  On a document satisfying the spec
§3 tree invariants, for every id in the subtree under `section_id` (the
section itself included) both the block map entry — hence content,
content_type, metadata and child ordering — and the structure map entry are
equal to their values before the clear. -/
theorem C2_clear_restore_identity (doc : Doc) (rank : String → Nat)
    (sectionId : String) (fcap fclear frestore : Nat)
    (res : ClearSectionResult) (doc₁ : Doc) (ids : List String) (doc₂ : Doc)
    (hwf : DocWF doc rank) (hfuel : rank sectionId < fclear)
    (hclear : clear_section_with_undo fcap fclear doc sectionId =
      some (Except.ok (res, doc₁)))
    (hrestore : restore_deleted_section frestore doc₁ res.deleted_content =
      Except.ok (ids, doc₂)) :
    ∀ x, Desc doc sectionId x →
      Dict.lookup x doc₂.blocks = Dict.lookup x doc.blocks ∧
      Dict.lookup x doc₂.struct = Dict.lookup x doc.struct := by
  rw [clear_section_with_undo] at hclear
  by_cases hcont : ¬ Dict.contains sectionId doc.blocks = true
  · rw [if_pos hcont] at hclear
    exact absurd hclear (by simp)
  · rw [if_neg hcont] at hclear
    rw [not_not] at hcont
    obtain ⟨bS, hb⟩ : ∃ b, Dict.lookup sectionId doc.blocks = some b := by
      rw [Dict.contains] at hcont
      exact Option.isSome_iff_exists.1 hcont
    rcases hcap : captureSectionContent fcap doc sectionId with _ | content
    · rw [hcap] at hclear
      exact absurd hclear (by simp)
    · rw [hcap] at hclear
      have hpd : ((⟨(clearSectionChildren fclear doc sectionId).2, content⟩ :
          ClearSectionResult), (clearSectionChildren fclear doc sectionId).1) =
          (res, doc₁) := Except.ok.inj (Option.some.inj hclear)
      have hres2 : res.deleted_content = content := by
        have h := congrArg (fun p : ClearSectionResult × Doc =>
          p.1.deleted_content) hpd
        exact h.symm
      have hdoc₁ : doc₁ = (clearSectionChildren fclear doc sectionId).1 :=
        (congrArg Prod.snd hpd).symm
      obtain ⟨_, hclsS, hclbS⟩ :=
        clearSectionChildren_char doc rank sectionId fclear hwf hfuel bS hb
      have hchil : doc₁.children sectionId = [] := by
        rw [hdoc₁, Doc.children, Dict.lookupD, hclsS]
        rfl
      have hbS1 : Dict.lookup sectionId doc₁.blocks =
          some { bS with children := [] } := by
        rw [hdoc₁]
        exact hclbS
      have hcap' : captureLoop fcap doc (captureInit doc sectionId)
          (doc.children sectionId) = some content := by
        rw [captureSectionContent] at hcap
        exact hcap
      have hag₀ : ∀ x, (Dict.lookup x (captureInit doc sectionId).blocks).isSome →
          Dict.lookup x (captureInit doc sectionId).blocks =
            Dict.lookup x doc.blocks := by
        intro x hx
        exact absurd hx (by simp [captureInit])
      have hsag₀ : ∀ x, (Dict.lookup x (captureInit doc sectionId).struct).isSome →
          Dict.lookup x (captureInit doc sectionId).struct =
            some (doc.children x) := by
        intro x hx
        by_cases hxc : x = sectionId
        · subst hxc
          exact Dict.lookup_set_self _ _ _
        · have heq : Dict.lookup x (captureInit doc sectionId).struct =
              Dict.lookup x ([] : Dict (List String)) :=
            Dict.lookup_set_ne _ _ _ _ hxc
          rw [heq] at hx
          exact absurd hx (by simp)
      obtain ⟨cp, cnb, cns, cB1, cB2, cS1, cS2⟩ :=
        captureLoop_char doc fcap (doc.children sectionId)
          (captureInit doc sectionId) content hcap' hag₀ hsag₀
      have hpid : content.parent_id = sectionId := cp
      have hSnr : ¬∃ q ∈ doc.children sectionId, Desc doc q sectionId := by
        rintro ⟨q, hq, hd⟩
        have h1 := Desc.rank_le hwf hd
        rcases children_mem_entry hq with ⟨cs, hcs, hm⟩
        have h2 := hwf.ranked sectionId cs q hcs hm
        omega
      have hcsS : Dict.lookup sectionId content.struct =
          some (doc.children sectionId) := by
        rw [cS2 sectionId hSnr]
        exact Dict.lookup_set_self _ _ _
      have hcbS : Dict.lookup sectionId content.blocks = none := by
        rw [cB2 sectionId hSnr]
        rfl
      have hSkeys : sectionId ∉ Dict.keys content.blocks :=
        Dict.not_mem_keys_of_lookup_none hcbS
      have hnodB : (Dict.keys content.blocks).Nodup := cnb List.nodup_nil
      have hnodS : (Dict.keys content.struct).Nodup := cns (List.nodup_singleton _)
      have hpc : Dict.lookupD sectionId content.struct [] =
          doc.children sectionId := by
        rw [Dict.lookupD, hcsS]
        rfl
      rw [hres2, restore_deleted_section] at hrestore
      by_cases hcre : ¬ Dict.contains content.parent_id doc₁.blocks = true
      · rw [if_pos hcre] at hrestore
        exact absurd hrestore (by simp)
      · rw [if_neg hcre] at hrestore
        have hok := Except.ok.inj hrestore
        have hs1 : restoreStage1 frestore doc₁ sectionId = doc₁ := by
          rw [restoreStage1, hchil]
          rfl
        have hs2 : restoreStage2 frestore doc₁ sectionId =
            { doc₁ with struct := Dict.set sectionId [] doc₁.struct } := by
          rw [restoreStage2, hs1]
        have hunf : doc₂ = setStructPair content.parent_id
            (Dict.lookupD content.parent_id content.struct [])
            (restoreStructFold content
              (restoreBlocksFold content
                (restoreStage2 frestore doc₁ content.parent_id)).1) := by
          have hd2 : (restoreOk frestore doc₁ content).2 = doc₂ :=
            congrArg Prod.snd hok
          rw [← hd2]
          rfl
        have hsfEq : ∀ d, restoreStructFold content d = content.struct.foldl
            (fun acc e => if e.1 ≠ content.parent_id then setStructPair e.1 e.2 acc
              else acc) d := fun d => rfl
        have hbfEq : ∀ d, restoreBlocksFold content d = content.blocks.foldl
            (fun acc e => ({ acc.1 with blocks := Dict.set e.1 e.2 acc.1.blocks },
              acc.2 ++ [e.1])) (d, ([] : List String)) := fun d => rfl
        intro x hdx
        rcases Desc.cases_head hdx with hxS | ⟨c, hc, hd'⟩
        · rw [hxS]
          constructor
          · rw [hunf, hpid, setStructPair_self_blocks, hsfEq]
            rw [(structFold_untouched content.parent_id content.struct _ sectionId
              (Or.inl hpid.symm)).2]
            rw [hbfEq]
            rw [blocksFold_blocks_not_mem content.blocks _ sectionId hSkeys]
            rw [hs2]
            show (Dict.lookup sectionId doc₁.blocks).map
                (fun b =>
                  { b with children := Dict.lookupD sectionId content.struct [] }) =
              Dict.lookup sectionId doc.blocks
            rw [hbS1, hpc, hb]
            show some { bS with children := doc.children sectionId } = some bS
            have hbc : doc.children sectionId = bS.children := by
              rw [Doc.children]
              exact hwf.sync sectionId bS hb
            rw [hbc]
          · rw [hunf, hpid, (setStructPair_self_char sectionId _ _).1, hpc]
            have hcov := hwf.covered sectionId (by rw [hb]; rfl)
            rcases hsS : Dict.lookup sectionId doc.struct with _ | csS
            · rw [hsS] at hcov
              exact absurd hcov (by simp)
            · rw [Doc.children, Dict.lookupD, hsS]
              rfl
        · have hrank_c : rank c < rank sectionId := by
            rcases children_mem_entry hc with ⟨cs, hcs, hm⟩
            exact hwf.ranked sectionId cs c hcs hm
          have hrank_x : rank x ≤ rank c := Desc.rank_le hwf hd'
          have hxS : x ≠ sectionId := by
            intro he
            rw [he] at hrank_x
            omega
          have hreach : ∃ q ∈ doc.children sectionId, Desc doc q x := ⟨c, hc, hd'⟩
          have hcpres : (Dict.lookup c doc.blocks).isSome := by
            rcases children_mem_entry hc with ⟨cs, hcs, hm⟩
            exact hwf.closed sectionId cs c hcs hm
          have hxpres : (Dict.lookup x doc.blocks).isSome :=
            desc_present hwf hd' hcpres
          obtain ⟨bx, hbx⟩ := Option.isSome_iff_exists.1 hxpres
          obtain ⟨csx, hsx⟩ := Option.isSome_iff_exists.1 (hwf.covered x hxpres)
          have hchx : doc.children x = csx := by
            rw [Doc.children, Dict.lookupD, hsx]
            rfl
          have hcbx : Dict.lookup x content.blocks = some bx := by
            rw [cB1 x (Or.inl hreach), hbx]
          have hcsx : Dict.lookup x content.struct = some (doc.children x) :=
            cS1 x hreach
          have hmem_b : (x, bx) ∈ content.blocks := Dict.lookup_mem hcbx
          have hmem_s : (x, doc.children x) ∈ content.struct :=
            Dict.lookup_mem hcsx
          have hxp : x ≠ content.parent_id := by
            rw [hpid]
            exact hxS
          constructor
          · rw [hunf, hpid, (setStructPair_lookup_ne sectionId x _ _ hxS).1, hsfEq]
            rw [(structFold_exact_val content.parent_id content.struct _ x
              (doc.children x) hnodS hmem_s hxp).2]
            rw [hbfEq]
            rw [blocksFold_exact content.blocks _ x bx hnodB hmem_b]
            rw [Option.map_some', hbx]
            have hbxc : doc.children x = bx.children := by
              rw [Doc.children]
              exact hwf.sync x bx hbx
            rw [hbxc]
          · rw [hunf, hpid, (setStructPair_lookup_ne sectionId x _ _ hxS).2, hsfEq]
            rw [(structFold_exact_val content.parent_id content.struct _ x
              (doc.children x) hnodS hmem_s hxp).1]
            rw [hsx, hchx]

/-- Concrete `clear_section_with_undo` run on section `"a"` of `c3doc`. -/
def c2pair : ClearSectionResult × Doc :=
  match clear_section_with_undo 5 3 c3doc "a" with
  | some (Except.ok p) => p
  | _ => (⟨[], { parent_id := "" }⟩, c3doc)

/-- The restore run that replays the captured content of `c2pair`. -/
def c2rest : List String × Doc :=
  match restore_deleted_section 3 c2pair.2 c2pair.1.deleted_content with
  | Except.ok p => p
  | _ => ([], c3doc)

theorem C2_clear_restore_identity_witness :
    Dict.lookup "b" c2rest.2.blocks = Dict.lookup "b" c3doc.blocks ∧
    Dict.lookup "a" c2rest.2.struct = Dict.lookup "a" c3doc.struct := by
  have hclear : clear_section_with_undo 5 3 c3doc "a" =
      some (Except.ok (c2pair.1, c2pair.2)) := by rfl
  have hrestore : restore_deleted_section 3 c2pair.2 c2pair.1.deleted_content =
      Except.ok (c2rest.1, c2rest.2) := by rfl
  have h := C2_clear_restore_identity c3doc c3rank "a" 5 3 3 c2pair.1 c2pair.2
    c2rest.1 c2rest.2 (wfCheck_sound (by decide)) (by decide) hclear hrestore
  exact ⟨(h "b" (Desc.step "a" "b" "b" (by decide) (Desc.refl "b"))).1,
    (h "a" (Desc.refl "a")).2⟩
